import Mathlib

/-!
Bootstrap median estimator: the median and the concurrent resampler.

A shallow embedding of `median.go` and `bootstrap.go`.

* The data of the program are finite `float64` values. A finite float64 value is the
  rational number it denotes, so a slice of data is a `List ℚ`, and `IsFloat64 q` says
  that the rational `q` is a float64 value. The two zeros are one value.
* The arithmetic of `Median`, `a + b` and `x / 2.0`, is float64 arithmetic: the exact
  result is rounded to the nearest float64 value, a tie going to the even significand,
  and a result beyond the largest float64 is an infinity (`round64`). A value computed by
  the program is a `Float64`: finite or an infinity. No operation of the program makes a
  NaN out of finite data.
* `sort.Float64s`, `copy`, `make` and `rand.Intn` belong to the Go standard library.
  The first three are embedded by what they compute; `rand.Intn(n)` is embedded as an
  outcome `r` with `r < n`, chosen by the environment.
* An index expression `a[i]` that is out of range panics in Go; it is embedded as
  `a[i]?`, and a panic is an explicit outcome of the embedding.
* The goroutines of `BootstrapConcurrent` are embedded as an interleaving of atomic
  steps: a receive from the channel, one iteration of the inner loop (one call of
  `rand.Intn`), and the assignment `medians[i] = Median(sample)`.
-/

namespace BootstrapGo

/-! ## float64 -/

/-- A value of the Go type `float64` that the program can compute: a finite value, given
by the rational number it denotes, or an infinity. -/
inductive Float64 where
  /-- The value `-Inf`. -/
  | negInf
  /-- A finite value. -/
  | finite (q : ℚ)
  /-- The value `+Inf`. -/
  | posInf
  deriving DecidableEq

/-- The largest finite float64, `math.MaxFloat64`. -/
def maxFloat64 : ℚ := (2 ^ 53 - 1) * 2 ^ 971

/-- The least magnitude that rounds to an infinity: half a unit in the last place above
`maxFloat64`. -/
def overflowThreshold : ℚ := 2 ^ 1024 - 2 ^ 970

/-- The integer nearest to `x`, a tie going to the even one. -/
def roundHalfEven (x : ℚ) : ℤ :=
  if x - ⌊x⌋ < 1 / 2 then ⌊x⌋
  else if 1 / 2 < x - ⌊x⌋ then ⌊x⌋ + 1
  else if ⌊x⌋ % 2 = 0 then ⌊x⌋ else ⌊x⌋ + 1

/-- The exponent of the unit in the last place of the float64 format at `q`: 52 below the
binary exponent of `q`, and at least -1074 (the subnormal values). -/
def ulpExp (q : ℚ) : ℤ := max (Int.log 2 |q| - 52) (-1074)

/-- The rounding of float64 arithmetic (IEEE 754, to nearest, ties to even): the float64
value of the exact result `q`. -/
def round64 (q : ℚ) : Float64 :=
  if overflowThreshold ≤ q then Float64.posInf
  else if q ≤ -overflowThreshold then Float64.negInf
  else Float64.finite (roundHalfEven (q / 2 ^ ulpExp q) * 2 ^ ulpExp q)

/-- The rational `q` is a float64 value: rounding leaves it as it is. -/
def IsFloat64 (q : ℚ) : Prop := round64 q = Float64.finite q

instance (q : ℚ) : Decidable (IsFloat64 q) :=
  inferInstanceAs (Decidable (round64 q = Float64.finite q))

/-- The Go expression `a + b` on finite float64 values. -/
def Float64.add (a b : ℚ) : Float64 := round64 (a + b)

/-- The Go expression `x / 2.0` on a float64 value. -/
def Float64.half : Float64 → Float64
  | Float64.finite q => round64 (q / 2)
  | Float64.posInf => Float64.posInf
  | Float64.negInf => Float64.negInf

/-! ## Standard library operations used by the program -/

/-- The Go builtin `make([]float64, n)`: a slice of `n` zeros. -/
def make (n : Nat) : List ℚ := List.replicate n 0

/-- The Go builtin `make([]float64, n)` for a slice that receives computed values. -/
def makeValues (n : Nat) : List Float64 := (make n).map Float64.finite

/-- The Go builtin `copy(dst, src)`: the first `min (len dst) (len src)` elements of
`dst` are overwritten by those of `src`; the value is the new content of `dst`. -/
def copy (dst src : List ℚ) : List ℚ :=
  src.take (min dst.length src.length) ++ dst.drop (min dst.length src.length)

/-- The library call `sort.Float64s(a)`: the content of `a` in increasing order. -/
def Float64s (a : List ℚ) : List ℚ := a.insertionSort (· ≤ ·)

/-! ## median.go -/

/-- The function `Median` of `median.go`, as a function of the content of its argument.
`none` stands for a run-time panic of an index expression. -/
def Median (data : List ℚ) : Option Float64 :=
  let n := data.length
  if n = 0 then some (Float64.finite 0)
  else
    let sorted := Float64s (copy (make n) data)
    let mid := n / 2
    if n % 2 = 0 then
      match sorted[mid - 1]?, sorted[mid]? with
      | some a, some b => some (Float64.half (Float64.add a b))
      | _, _ => none
    else (sorted[mid]?).map Float64.finite

/-- The median as the specification words it, in exact arithmetic, over a sequence `s`
that is already in increasing order: 0 for the empty sequence, the middle element for an
odd length, the average of the two middle elements for an even length. -/
def medianOfSorted (s : List ℚ) : Option ℚ :=
  if s.length = 0 then some 0
  else if s.length % 2 = 1 then s[s.length / 2]?
  else
    match s[s.length / 2 - 1]?, s[s.length / 2]? with
    | some a, some b => some ((a + b) / 2)
    | _, _ => none

/-! ### `Median` on a memory

To speak of what `Median` does to the slice of its caller, the same statements are
embedded a second time over an explicit memory. -/

/-- The arrays allocated so far. A slice is identified with the position of its array;
a position that holds no array is the nil slice. -/
abbrev Memory := List (List ℚ)

/-- The content of the slice at position `a`. -/
def Memory.read (mem : Memory) (a : Nat) : List ℚ := (mem[a]?).getD []

/-- The statements of `Median` of `median.go` run on the memory `mem`, the argument being
the slice at position `data`: the memory after the call and the value returned. -/
def MedianOn (mem : Memory) (data : Nat) : Memory × Option Float64 :=
  let n := (mem.read data).length
  if n = 0 then (mem, some (Float64.finite 0))
  else
    -- sorted := make([]float64, n)
    let sorted := mem.length
    let mem1 : Memory := mem ++ [make n]
    -- copy(sorted, data)
    let mem2 : Memory := mem1.set sorted (copy (mem1.read sorted) (mem1.read data))
    -- sort.Float64s(sorted)
    let mem3 : Memory := mem2.set sorted (Float64s (mem2.read sorted))
    let mid := n / 2
    if n % 2 = 0 then
      match (mem3.read sorted)[mid - 1]?, (mem3.read sorted)[mid]? with
      | some a, some b => (mem3, some (Float64.half (Float64.add a b)))
      | _, _ => (mem3, none)
    else (mem3, ((mem3.read sorted)[mid]?).map Float64.finite)

/-! ## bootstrap.go: the single-threaded `Bootstrap` -/

/-- The inner loop `for j := 0; j < n; j++ { sample[j] = data[rand.Intn(n)] }` of
`Bootstrap`, over the positions `js`. The state is the sample and the number `k` of
values the generator has produced so far; `src k` is the value of the next call of
`rand.Intn(n)`. `none`: an index expression panics, or `src k` is not a value
`rand.Intn(n)` can return. -/
def fillSample (data : List ℚ) (src : Nat → Nat) (js : List Nat) (st : List ℚ × Nat) :
    Option (List ℚ × Nat) :=
  js.foldlM (fun (st : List ℚ × Nat) (j : Nat) =>
    if h : src st.2 < data.length then
      if j < st.1.length then some (st.1.set j data[src st.2], st.2 + 1) else none
    else none) st

/-- The body of the outer loop of `Bootstrap` for the trial `i`. The state is the slice
`medians` and the number of values the generator has produced so far. -/
def trialBody (data : List ℚ) (src : Nat → Nat) (st : List Float64 × Nat) (i : Nat) :
    Option (List Float64 × Nat) :=
  match fillSample data src (List.range data.length) (make data.length, st.2) with
  | none => none
  | some (sample, k) =>
    match Median sample with
    | none => none
    | some m => if i < st.1.length then some (st.1.set i m, k) else none

/-- The function `Bootstrap` of `bootstrap.go` (the single-threaded variant, kept in the
source inside a comment), with the random source `src`: the `k`-th call of
`rand.Intn(n)` of the run returns `src k`. -/
def Bootstrap (data : List ℚ) (B : Nat) (src : Nat → Nat) : Option (List Float64) :=
  ((List.range B).foldlM (trialBody data src) (makeValues B, 0)).map Prod.fst

/-! ## bootstrap.go: `BootstrapConcurrent` -/

/-- Where a worker goroutine of `BootstrapConcurrent` stands. -/
inductive Worker where
  /-- At `for i := range ch`, about to receive. -/
  | receiving
  /-- In the trial `i`, at the test `j < n` of the inner loop, with the slice `sample`. -/
  | sampling (i j : Nat) (sample : List ℚ)
  /-- The loop is left and the deferred `wg.Done()` has run. -/
  | done
  /-- An index expression of the goroutine has panicked. -/
  | panicked
  deriving DecidableEq

/-- The state of a run of `BootstrapConcurrent` once the channel is filled and closed
and the workers are started. The last three fields record what happened; no step
reads them. -/
structure State where
  /-- The indices still in the channel `ch`, the oldest first. -/
  ch : List Nat
  /-- The worker goroutines. -/
  workers : List Worker
  /-- The slice `medians`. -/
  medians : List Float64
  /-- The trial indices received from `ch`, in the order of the receives. -/
  received : List Nat
  /-- The calls of `rand.Intn`, in their order: the trial being processed and the value
  returned. -/
  draws : List (Nat × Nat)
  /-- The assignments `medians[i] = Median(sample)` executed, in their order: the trial
  `i` and the slice `sample`. -/
  stored : List (Nat × List ℚ)
  deriving DecidableEq

/-- One step of a run: the goroutine `w` takes its next step, and `r` is what
`rand.Intn(n)` returns if that step calls it. -/
structure Event where
  /-- The goroutine that takes the step. -/
  w : Nat
  /-- The value `rand.Intn(n)` returns, if the step calls it. -/
  r : Nat
  deriving DecidableEq

/-- The state after `medians := make([]float64, B)`, the channel filled with
`0, ..., B-1` and closed, and `workers` goroutines started. -/
def start (B workers : Nat) : State :=
  { ch := List.range B, workers := List.replicate workers Worker.receiving,
    medians := makeValues B, received := [], draws := [], stored := [] }

/-- One atomic step of the goroutine `e.w`. `none`: the step cannot happen (there is no
such goroutine, it has ended, or `e.r` is not a value `rand.Intn(n)` can return). -/
def step (data : List ℚ) (e : Event) (s : State) : Option State :=
  let n := data.length
  match s.workers[e.w]? with
  | none => none
  | some Worker.done => none
  | some Worker.panicked => none
  | some Worker.receiving =>
    -- for i := range ch
    match s.ch with
    | [] => some { s with workers := s.workers.set e.w Worker.done }
    | i :: rest =>
      some { s with ch := rest,
                    workers := s.workers.set e.w (Worker.sampling i 0 (make n)),
                    received := s.received ++ [i] }
  | some (Worker.sampling i j sample) =>
    if j < n then
      -- sample[j] = data[rand.Intn(n)]
      if h : e.r < data.length then
        if j < sample.length then
          some { s with workers :=
                          s.workers.set e.w (Worker.sampling i (j + 1) (sample.set j data[e.r])),
                        draws := s.draws ++ [(i, e.r)] }
        else some { s with workers := s.workers.set e.w Worker.panicked }
      else none
    else
      -- medians[i] = Median(sample)
      match Median sample with
      | some m =>
        if i < s.medians.length then
          some { s with medians := s.medians.set i m,
                        workers := s.workers.set e.w Worker.receiving,
                        stored := s.stored ++ [(i, sample)] }
        else some { s with workers := s.workers.set e.w Worker.panicked }
      | none => some { s with workers := s.workers.set e.w Worker.panicked }

/-- The state after the steps `es`, in this order. -/
def exec (data : List ℚ) : List Event → State → Option State
  | [], s => some s
  | e :: es, s => (step data e s).bind (exec data es)

/-- Every worker has run `wg.Done()`: `wg.Wait()` returns. -/
def finished (s : State) : Bool := s.workers.all (fun w => decide (w = Worker.done))

/-- A complete run of `BootstrapConcurrent(data, B, workers)` along the steps `es`: the
state in which `wg.Wait()` returns. `none`: `es` is not a complete run. -/
def run (data : List ℚ) (B workers : Nat) (es : List Event) : Option State :=
  match exec data es (start B workers) with
  | some s => if finished s then some s else none
  | none => none

/-- The function `BootstrapConcurrent` of `bootstrap.go`: the slice `medians` returned by
the run along the steps `es`. -/
def BootstrapConcurrent (data : List ℚ) (B workers : Nat) (es : List Event) :
    Option (List Float64) :=
  (run data B workers es).map State.medians

/-! ### What a run recorded -/

/-- The values `rand.Intn` returned while the trial `i` was processed, in their order. -/
def State.drawsOf (s : State) (i : Nat) : List Nat :=
  (s.draws.filter (fun p => decide (p.1 = i))).map Prod.snd

/-- The trial indices for which `medians[i] = Median(sample)` was executed. -/
def State.processed (s : State) : List Nat := s.stored.map Prod.fst

/-- The trial a worker is processing. -/
def Worker.trial : Worker → Option Nat
  | Worker.sampling i _ _ => some i
  | _ => none

/-- The trials being processed. -/
def inflight (ws : List Worker) : List Nat := ws.filterMap Worker.trial

/-- The number of steps a worker takes before it receives again or ends. -/
def Worker.cost (n : Nat) : Worker → Nat
  | Worker.receiving => 1
  | Worker.sampling _ j _ => (n - j) + 2
  | Worker.done => 0
  | Worker.panicked => 0

/-- A bound on the number of steps left in a run. -/
def State.remaining (n : Nat) (s : State) : Nat :=
  s.ch.length * (n + 2) + (s.workers.map (Worker.cost n)).sum

/-- The invariant of the runs of `BootstrapConcurrent(data, B, W)`. -/
structure Inv (data : List ℚ) (B W : Nat) (s : State) : Prop where
  workers_length : s.workers.length = W
  medians_length : s.medians.length = B
  queue : s.received ++ s.ch = List.range B
  owned : (inflight s.workers ++ s.processed).Perm s.received
  sampling : ∀ (w i j : Nat) (sample : List ℚ), s.workers[w]? = some (Worker.sampling i j sample) →
    j ≤ data.length ∧ sample.length = data.length ∧
    (sample.take j).map some = (s.drawsOf i).map (fun r => data[r]?) ∧
    (s.drawsOf i).length = j
  draws_received : ∀ p ∈ s.draws, p.1 ∈ s.received
  stored : ∀ p ∈ s.stored, s.medians[p.1]? = Median p.2 ∧ p.2.length = data.length ∧
    p.2.map some = (s.drawsOf p.1).map (fun r => data[r]?)
  no_panic : Worker.panicked ∉ s.workers
  closed : Worker.done ∈ s.workers → s.ch = []

/-! ## float64 arithmetic -/

theorem two_zpow_pos (p : ℤ) : (0 : ℚ) < 2 ^ p := zpow_pos (by norm_num) p

theorem zpow_log_le (x : ℚ) (hx : x ≠ 0) : (2 : ℚ) ^ Int.log 2 |x| ≤ |x| := by
  have := Int.zpow_log_le_self (b := 2) (r := |x|) (by norm_num) (abs_pos.mpr hx)
  simpa using this

theorem lt_zpow_log_succ (x : ℚ) : |x| < (2 : ℚ) ^ (Int.log 2 |x| + 1) := by
  have := Int.lt_zpow_succ_log_self (b := 2) (by norm_num) |x|
  simpa using this

theorem log_lt_of_lt_zpow (x : ℚ) (hx : x ≠ 0) (e : ℤ) (h : |x| < (2 : ℚ) ^ e) :
    Int.log 2 |x| < e := by
  have := (Int.lt_zpow_iff_log_lt (b := 2) (by norm_num) (x := e) (abs_pos.mpr hx)).mp
    (by simpa using h)
  exact this

theorem le_log_of_zpow_le (x : ℚ) (hx : x ≠ 0) (e : ℤ) (h : (2 : ℚ) ^ e ≤ |x|) :
    e ≤ Int.log 2 |x| := by
  have := (Int.zpow_le_iff_le_log (b := 2) (by norm_num) (x := e) (abs_pos.mpr hx)).mp
    (by simpa using h)
  exact this

/-! ### Rounding to an integer -/

theorem roundHalfEven_intCast (k : ℤ) : roundHalfEven (k : ℚ) = k := by
  unfold roundHalfEven
  simp

theorem roundHalfEven_cases (x : ℚ) :
    roundHalfEven x = ⌊x⌋ ∨ (roundHalfEven x = ⌊x⌋ + 1 ∧ (⌊x⌋ : ℚ) < x) := by
  unfold roundHalfEven
  by_cases h1 : x - ⌊x⌋ < 1 / 2
  · left; rw [if_pos h1]
  · have hpos : (⌊x⌋ : ℚ) < x := by
      have : (1 : ℚ) / 2 ≤ x - ⌊x⌋ := not_lt.mp h1
      linarith
    rw [if_neg h1]
    by_cases h2 : 1 / 2 < x - ⌊x⌋
    · right; rw [if_pos h2]; exact ⟨rfl, hpos⟩
    · rw [if_neg h2]
      by_cases h3 : ⌊x⌋ % 2 = 0
      · left; rw [if_pos h3]
      · right; rw [if_neg h3]; exact ⟨rfl, hpos⟩

theorem roundHalfEven_tie_odd (f : ℤ) (h : f % 2 = 1) :
    roundHalfEven ((f : ℚ) + 1 / 2) = f + 1 := by
  have hfl : ⌊(f : ℚ) + 1 / 2⌋ = f := by
    rw [Int.floor_eq_iff]
    constructor <;> norm_num
  unfold roundHalfEven
  rw [hfl]
  have h3 : ¬ f % 2 = 0 := by omega
  simp [h3]

/-! ### Float64 values -/

theorem IsFloat64.lt_threshold {y : ℚ} (h : IsFloat64 y) :
    -overflowThreshold < y ∧ y < overflowThreshold := by
  unfold IsFloat64 round64 at h
  by_cases h1 : overflowThreshold ≤ y
  · simp [h1] at h
  · by_cases h2 : y ≤ -overflowThreshold
    · simp [h1, h2] at h
    · exact ⟨not_le.mp h2, not_le.mp h1⟩

theorem IsFloat64.eq_mul {y : ℚ} (h : IsFloat64 y) :
    y = (roundHalfEven (y / 2 ^ ulpExp y) : ℚ) * 2 ^ ulpExp y := by
  have hb := h.lt_threshold
  unfold IsFloat64 round64 at h
  simp only [not_le.mpr hb.2, not_le.mpr hb.1, if_false] at h
  exact (Float64.finite.inj h).symm

theorem round64_finite (q : ℚ) (h1 : -overflowThreshold < q) (h2 : q < overflowThreshold) :
    round64 q = Float64.finite (roundHalfEven (q / 2 ^ ulpExp q) * 2 ^ ulpExp q) := by
  unfold round64
  simp only [not_le.mpr h2, not_le.mpr h1, if_false]

theorem round64_posInf (q : ℚ) (h : overflowThreshold ≤ q) : round64 q = Float64.posInf := by
  unfold round64
  simp [h]

theorem overflowThreshold_pos : 0 < overflowThreshold := by
  unfold overflowThreshold
  have h : (2 : ℚ) ^ 970 < 2 ^ 1024 := pow_lt_pow_right₀ (by norm_num) (by norm_num)
  linarith

theorem round64_negInf (q : ℚ) (h : q ≤ -overflowThreshold) : round64 q = Float64.negInf := by
  unfold round64
  have : ¬ overflowThreshold ≤ q := by
    have := overflowThreshold_pos
    intro h'
    linarith
  simp [h, this]

theorem round64_zero : round64 0 = Float64.finite 0 := by
  rw [round64_finite 0 (by linarith [overflowThreshold_pos]) overflowThreshold_pos]
  simp [roundHalfEven]

/-- A multiple of a power of two is a multiple of every smaller power of two. -/
theorem mul_zpow_of_le (K : ℤ) (p p' : ℤ) (h : p ≤ p') :
    ∃ K' : ℤ, (K : ℚ) * 2 ^ p' = (K' : ℚ) * 2 ^ p := by
  refine ⟨K * 2 ^ (p' - p).toNat, ?_⟩
  have hp : p' = ((p' - p).toNat : ℤ) + p := by
    rw [Int.toNat_of_nonneg (by omega)]
    ring
  have h2 : (2 : ℚ) ^ p' = 2 ^ (p' - p).toNat * 2 ^ p := by
    conv_lhs => rw [hp]
    rw [zpow_add₀ (by norm_num), zpow_natCast]
  rw [h2]
  push_cast
  ring

theorem ulpExp_ge (x : ℚ) : -1074 ≤ ulpExp x := le_max_right _ _

theorem ulpExp_cases (x : ℚ) :
    ulpExp x = -1074 ∨ (ulpExp x = Int.log 2 |x| - 52 ∧ -1074 ≤ Int.log 2 |x| - 52) := by
  unfold ulpExp
  rcases le_total (Int.log 2 |x| - 52) (-1074) with h | h
  · left; exact max_eq_right h
  · right; exact ⟨max_eq_left h, h⟩

theorem log_sub_le_ulpExp (x : ℚ) : Int.log 2 |x| - 52 ≤ ulpExp x := le_max_left _ _

/-- No float64 value lies strictly between two neighbours of the grid on which `x` is
rounded, when `x` is not on that grid. -/
theorem cell_free (x y : ℚ) (hy : IsFloat64 y)
    (hx : (⌊x / 2 ^ ulpExp x⌋ : ℚ) < x / 2 ^ ulpExp x) :
    ¬ ((⌊x / 2 ^ ulpExp x⌋ : ℚ) * 2 ^ ulpExp x < y ∧
        y < ((⌊x / 2 ^ ulpExp x⌋ : ℚ) + 1) * 2 ^ ulpExp x) := by
  rintro ⟨h1, h2⟩
  have hx0 : x ≠ 0 := by
    intro h0
    rw [h0] at hx
    simp at hx
  have hu := two_zpow_pos (ulpExp x)
  set u : ℚ := 2 ^ ulpExp x with hudef
  set k : ℤ := ⌊x / u⌋ with hk
  have hxl : (k : ℚ) * u < x := by
    have := mul_lt_mul_of_pos_right hx hu
    rwa [div_mul_cancel₀ _ (ne_of_gt hu)] at this
  have hxr : x < ((k : ℚ) + 1) * u := by
    have : x / u < (k : ℚ) + 1 := Int.lt_floor_add_one _
    have := mul_lt_mul_of_pos_right this hu
    rwa [div_mul_cancel₀ _ (ne_of_gt hu)] at this
  rcases le_or_lt (ulpExp x) (ulpExp y) with hp | hp
  · obtain ⟨K', hK'⟩ := mul_zpow_of_le (roundHalfEven (y / 2 ^ ulpExp y)) (ulpExp x) (ulpExp y) hp
    have hyK : y = (K' : ℚ) * u := by rw [← hK']; exact hy.eq_mul
    rw [hyK] at h1 h2
    have a1 : (k : ℚ) < K' := lt_of_mul_lt_mul_right h1 (le_of_lt hu)
    have a2 : (K' : ℚ) < (k : ℚ) + 1 := lt_of_mul_lt_mul_right h2 (le_of_lt hu)
    have b1 : k < K' := by exact_mod_cast a1
    have b2 : K' < k + 1 := by exact_mod_cast a2
    omega
  · have hpy := ulpExp_ge y
    rcases ulpExp_cases x with hc | ⟨hc, _⟩
    · omega
    · have hly := log_sub_le_ulpExp y
      have hlog : Int.log 2 |y| + 1 ≤ Int.log 2 |x| := by omega
      have hylt : |y| < (2 : ℚ) ^ Int.log 2 |x| :=
        lt_of_lt_of_le (lt_zpow_log_succ y) (zpow_le_zpow_right₀ (by norm_num) hlog)
      have hxge := zpow_log_le x hx0
      have hN : (2 : ℚ) ^ Int.log 2 |x| = 2 ^ (52 : ℕ) * u := by
        rw [hudef, hc, ← zpow_natCast, ← zpow_add₀ (by norm_num)]
        congr 1
        omega
      rw [hN] at hylt hxge
      have hy1 := (abs_lt.mp hylt).1
      have hy2 := (abs_lt.mp hylt).2
      have c1 : (k : ℚ) * u < 2 ^ (52 : ℕ) * u := lt_trans h1 hy2
      have c2 : -(2 ^ (52 : ℕ) * u) < ((k : ℚ) + 1) * u := lt_trans hy1 h2
      have d1 : (k : ℚ) < 2 ^ (52 : ℕ) := lt_of_mul_lt_mul_right c1 (le_of_lt hu)
      have d2 : -(2 ^ (52 : ℕ) : ℚ) < (k : ℚ) + 1 := by
        have : (-(2 ^ (52 : ℕ)) : ℚ) * u < ((k : ℚ) + 1) * u := by linarith
        exact lt_of_mul_lt_mul_right this (le_of_lt hu)
      have e1 : k < 2 ^ (52 : ℕ) := by exact_mod_cast d1
      have e2 : -(2 ^ (52 : ℕ) : ℤ) < k + 1 := by exact_mod_cast d2
      have f1 : ((k : ℚ) + 1) ≤ 2 ^ (52 : ℕ) := by exact_mod_cast (show k + 1 ≤ 2 ^ (52 : ℕ) by omega)
      have f2 : -(2 ^ (52 : ℕ) : ℚ) ≤ (k : ℚ) := by
        exact_mod_cast (show -(2 ^ (52 : ℕ) : ℤ) ≤ k by omega)
      have g1 : x < 2 ^ (52 : ℕ) * u := lt_of_lt_of_le hxr (mul_le_mul_of_nonneg_right f1 (le_of_lt hu))
      have g2 : -(2 ^ (52 : ℕ) * u) < x := by
        have : (-(2 ^ (52 : ℕ)) : ℚ) * u ≤ (k : ℚ) * u := mul_le_mul_of_nonneg_right f2 (le_of_lt hu)
        linarith
      have : |x| < 2 ^ (52 : ℕ) * u := abs_lt.mpr ⟨g2, g1⟩
      linarith

/-- Rounding does not pass a float64 value from below. -/
theorem round64_le_of_le (x y : ℚ) (hy : IsFloat64 y) (hxy : x ≤ y) :
    round64 x = Float64.negInf ∨ ∃ q, round64 x = Float64.finite q ∧ q ≤ y := by
  have hyb := hy.lt_threshold
  by_cases h1 : x ≤ -overflowThreshold
  · left; exact round64_negInf x h1
  · right
    have h2 : x < overflowThreshold := lt_of_le_of_lt hxy hyb.2
    refine ⟨_, round64_finite x (not_le.mp h1) h2, ?_⟩
    have hu := two_zpow_pos (ulpExp x)
    have hfl : (⌊x / 2 ^ ulpExp x⌋ : ℚ) * 2 ^ ulpExp x ≤ x := by
      have := mul_le_mul_of_nonneg_right (Int.floor_le (x / 2 ^ ulpExp x)) (le_of_lt hu)
      rwa [div_mul_cancel₀ _ (ne_of_gt hu)] at this
    rcases roundHalfEven_cases (x / 2 ^ ulpExp x) with hr | ⟨hr, hlt⟩
    · rw [hr]
      exact le_trans hfl hxy
    · rw [hr]
      push_cast
      by_contra hc
      have hxl : (⌊x / 2 ^ ulpExp x⌋ : ℚ) * 2 ^ ulpExp x < x := by
        have := mul_lt_mul_of_pos_right hlt hu
        rwa [div_mul_cancel₀ _ (ne_of_gt hu)] at this
      exact cell_free x y hy hlt ⟨lt_of_lt_of_le hxl hxy, not_le.mp hc⟩

/-- Rounding does not pass a float64 value from above. -/
theorem le_round64_of_le (x y : ℚ) (hy : IsFloat64 y) (hyx : y ≤ x) :
    round64 x = Float64.posInf ∨ ∃ q, round64 x = Float64.finite q ∧ y ≤ q := by
  have hyb := hy.lt_threshold
  by_cases h1 : overflowThreshold ≤ x
  · left; exact round64_posInf x h1
  · right
    have h2 : -overflowThreshold < x := lt_of_lt_of_le hyb.1 hyx
    refine ⟨_, round64_finite x h2 (not_le.mp h1), ?_⟩
    have hu := two_zpow_pos (ulpExp x)
    have hxr : x < ((⌊x / 2 ^ ulpExp x⌋ : ℚ) + 1) * 2 ^ ulpExp x := by
      have := mul_lt_mul_of_pos_right (Int.lt_floor_add_one (x / 2 ^ ulpExp x)) hu
      rwa [div_mul_cancel₀ _ (ne_of_gt hu)] at this
    rcases roundHalfEven_cases (x / 2 ^ ulpExp x) with hr | ⟨hr, _⟩
    · rw [hr]
      by_contra hc
      rcases eq_or_lt_of_le (Int.floor_le (x / 2 ^ ulpExp x)) with heq | hlt
      · have hxe : (⌊x / 2 ^ ulpExp x⌋ : ℚ) * 2 ^ ulpExp x = x := by
          rw [heq, div_mul_cancel₀ _ (ne_of_gt hu)]
        rw [hxe] at hc
        exact hc hyx
      · exact cell_free x y hy hlt ⟨not_le.mp hc, lt_of_le_of_lt hyx hxr⟩
    · rw [hr]
      push_cast
      exact le_of_lt (lt_of_le_of_lt hyx hxr)

theorem maxFloat64_lt_threshold : maxFloat64 < overflowThreshold := by
  unfold maxFloat64 overflowThreshold
  have h1 : (2 : ℚ) ^ 1024 = 2 ^ 54 * 2 ^ 970 := by rw [← pow_add]
  have h2 : (2 : ℚ) ^ 971 = 2 * 2 ^ 970 := by rw [pow_succ]; ring
  have hX : (0 : ℚ) < 2 ^ 970 := pow_pos (by norm_num) _
  rw [h1, h2]
  nlinarith

theorem two_zpow_ofNat (n : ℕ) : (2 : ℚ) ^ (n : ℤ) = 2 ^ n := zpow_natCast 2 n

theorem threshold_lt : overflowThreshold < 2 ^ (1024 : ℤ) := by
  unfold overflowThreshold
  have hX : (0 : ℚ) < 2 ^ 970 := pow_pos (by norm_num) _
  have h := two_zpow_ofNat 1024
  simp only [Nat.cast_ofNat] at h
  rw [h]
  linarith

/-- A number `m * 2 ^ t` with `|m| < 2 ^ 53` and `-1074 ≤ t ≤ 971` is a float64 value. -/
theorem isFloat64_of_scaled (m t : ℤ) (hm : |m| < 2 ^ 53) (ht1 : -1074 ≤ t) (ht2 : t ≤ 971) :
    IsFloat64 ((m : ℚ) * 2 ^ t) := by
  have ht := two_zpow_pos t
  have hmq : |(m : ℚ)| ≤ 2 ^ 53 - 1 := by
    have : |m| ≤ 2 ^ 53 - 1 := by omega
    have h : ((|m| : ℤ) : ℚ) ≤ ((2 ^ 53 - 1 : ℤ) : ℚ) := Int.cast_le.mpr this
    rw [← Int.cast_abs]
    refine le_trans h (le_of_eq ?_)
    norm_num
  have habs : |(m : ℚ) * 2 ^ t| ≤ maxFloat64 := by
    rw [abs_mul, abs_of_pos ht]
    unfold maxFloat64
    have h971 : (2 : ℚ) ^ t ≤ 2 ^ (971 : ℕ) := by
      rw [← zpow_natCast]
      exact zpow_le_zpow_right₀ (by norm_num) (by simpa using ht2)
    exact mul_le_mul hmq h971 (le_of_lt ht) (by norm_num)
  have hlt := lt_of_le_of_lt habs maxFloat64_lt_threshold
  have hb := abs_lt.mp hlt
  unfold IsFloat64
  rw [round64_finite _ hb.1 hb.2]
  congr 1
  by_cases hm0 : m = 0
  · simp [hm0, roundHalfEven]
  · have hy0 : (m : ℚ) * 2 ^ t ≠ 0 := mul_ne_zero (by exact_mod_cast hm0) (ne_of_gt ht)
    have hlt2 : |(m : ℚ) * 2 ^ t| < (2 : ℚ) ^ (t + 53) := by
      rw [abs_mul, abs_of_pos ht, zpow_add₀ (by norm_num), mul_comm]
      have : |(m : ℚ)| < 2 ^ (53 : ℤ) := by
        have h53 : (2 : ℚ) ^ (53 : ℤ) = 2 ^ 53 := by norm_cast
        rw [h53]
        linarith
      exact mul_lt_mul_of_pos_left this ht
    have hlog := log_lt_of_lt_zpow _ hy0 _ hlt2
    have hp : ulpExp ((m : ℚ) * 2 ^ t) ≤ t := by
      unfold ulpExp
      exact max_le (by omega) ht1
    generalize ulpExp ((m : ℚ) * 2 ^ t) = p at hp ⊢
    obtain ⟨K', hK'⟩ := mul_zpow_of_le m p t hp
    rw [hK', mul_div_assoc, div_self (ne_of_gt (two_zpow_pos _)), mul_one, roundHalfEven_intCast]

/-- A float64 value is `m * 2 ^ t` with `|m| < 2 ^ 53` and `-1074 ≤ t ≤ 971`. -/
theorem IsFloat64.scaled {y : ℚ} (h : IsFloat64 y) :
    ∃ m t : ℤ, |m| < 2 ^ 53 ∧ -1074 ≤ t ∧ t ≤ 971 ∧ y = (m : ℚ) * 2 ^ t := by
  have hu := two_zpow_pos (ulpExp y)
  refine ⟨roundHalfEven (y / 2 ^ ulpExp y), ulpExp y, ?_, ulpExp_ge y, ?_, h.eq_mul⟩
  · have hy : y = (roundHalfEven (y / 2 ^ ulpExp y) : ℚ) * 2 ^ ulpExp y := h.eq_mul
    have h1 : |y| < (2 : ℚ) ^ (ulpExp y + 53) :=
      lt_of_lt_of_le (lt_zpow_log_succ y)
        (zpow_le_zpow_right₀ (by norm_num) (by have := log_sub_le_ulpExp y; omega))
    generalize roundHalfEven (y / 2 ^ ulpExp y) = K at hy ⊢
    generalize ulpExp y = p at hy h1 hu
    rw [hy, abs_mul, abs_of_pos hu, zpow_add₀ (by norm_num), mul_comm] at h1
    have h2 : |(K : ℚ)| < 2 ^ (53 : ℤ) := lt_of_mul_lt_mul_left h1 (le_of_lt hu)
    have h53 : (2 : ℚ) ^ (53 : ℤ) = ((2 ^ 53 : ℤ) : ℚ) := by norm_cast
    rw [h53, ← Int.cast_abs] at h2
    exact_mod_cast h2
  · by_cases hy0 : y = 0
    · subst hy0
      simp [ulpExp, Int.log_zero_right]
    · have hb := h.lt_threshold
      have habs : |y| < (2 : ℚ) ^ (1024 : ℤ) := lt_trans (abs_lt.mpr hb) threshold_lt
      have hlog := log_lt_of_lt_zpow y hy0 _ habs
      unfold ulpExp
      exact max_le (by omega) (by norm_num)

/-- Twice a float64 value is a float64 value, unless it overflows. -/
theorem IsFloat64.double {c : ℚ} (h : IsFloat64 c) (hc : |c| ≤ maxFloat64 / 2) :
    IsFloat64 (c + c) := by
  obtain ⟨m, t, hm, ht1, ht2, rfl⟩ := h.scaled
  have ht := two_zpow_pos t
  by_cases hsmall : |m| < 2 ^ 52
  · have : (m : ℚ) * 2 ^ t + (m : ℚ) * 2 ^ t = ((2 * m : ℤ) : ℚ) * 2 ^ t := by
      push_cast; ring
    rw [this]
    refine isFloat64_of_scaled (2 * m) t ?_ ht1 ht2
    rw [abs_mul]
    simp only [abs_two]
    omega
  · have hbig : (2 : ℤ) ^ 52 ≤ |m| := not_lt.mp hsmall
    have : (m : ℚ) * 2 ^ t + (m : ℚ) * 2 ^ t = (m : ℚ) * 2 ^ (t + 1) := by
      rw [zpow_add₀ (by norm_num)]; ring
    rw [this]
    refine isFloat64_of_scaled m (t + 1) hm (by omega) ?_
    by_contra hcon
    have ht971 : t = 971 := by omega
    subst ht971
    have hq : ((2 : ℚ) ^ 52) ≤ |(m : ℚ)| := by
      have : (((2 : ℤ) ^ 52 : ℤ) : ℚ) ≤ ((|m| : ℤ) : ℚ) := by exact_mod_cast hbig
      simpa using this
    rw [abs_mul, abs_of_pos ht] at hc
    unfold maxFloat64 at hc
    have h971 := two_zpow_ofNat 971
    simp only [Nat.cast_ofNat] at h971
    rw [h971] at hc
    have hX : (0 : ℚ) < 2 ^ 971 := pow_pos (by norm_num) _
    have : (2 : ℚ) ^ 52 * 2 ^ 971 ≤ |(m : ℚ)| * 2 ^ 971 :=
      mul_le_mul_of_nonneg_right hq (le_of_lt hX)
    generalize (2 : ℚ) ^ 971 = X at hc hX this
    generalize |(m : ℚ)| = a at hc this
    nlinarith

theorem isFloat64_zero : IsFloat64 0 := round64_zero

theorem isFloat64_maxFloat64 : IsFloat64 maxFloat64 := by
  have := isFloat64_of_scaled (2 ^ 53 - 1) 971 (by norm_num) (by norm_num) (by norm_num)
  have h971 := two_zpow_ofNat 971
  simp only [Nat.cast_ofNat] at h971
  have e : (((2 ^ 53 - 1 : ℤ) : ℚ)) * 2 ^ (971 : ℤ) = maxFloat64 := by
    unfold maxFloat64
    rw [h971]
    congr 1
    norm_num
  rwa [e] at this

/-- The rounding of `q`, from the binary exponent of `q`. -/
theorem round64_of_exponent (q : ℚ) (e : ℤ) (h1 : (2 : ℚ) ^ e ≤ |q|)
    (h2 : |q| < (2 : ℚ) ^ (e + 1)) (h3 : |q| < overflowThreshold) :
    round64 q = Float64.finite
      (roundHalfEven (q / 2 ^ max (e - 52) (-1074)) * 2 ^ max (e - 52) (-1074)) := by
  have hq0 : q ≠ 0 := by
    intro h0
    rw [h0, abs_zero] at h1
    exact absurd h1 (not_le.mpr (two_zpow_pos e))
  have hlog : Int.log 2 |q| = e :=
    le_antisymm (by have := log_lt_of_lt_zpow q hq0 _ h2; omega) (le_log_of_zpow_le q hq0 e h1)
  have hb := abs_lt.mp h3
  rw [round64_finite q hb.1 hb.2]
  unfold ulpExp
  rw [hlog]

/-! ## The median -/

theorem length_make (n : Nat) : (make n).length = n := by simp [make]

theorem length_makeValues (n : Nat) : (makeValues n).length = n := by simp [makeValues, make]

theorem copy_make (xs : List ℚ) : copy (make xs.length) xs = xs := by
  simp [copy, make]

theorem Float64s_sorted (a : List ℚ) : (Float64s a).Sorted (· ≤ ·) :=
  List.sorted_insertionSort _ a

theorem Float64s_perm (a : List ℚ) : (Float64s a).Perm a :=
  List.perm_insertionSort _ a

theorem length_Float64s (a : List ℚ) : (Float64s a).length = a.length :=
  (Float64s_perm a).length_eq

/-- The sorted rearrangement of a sequence is unique, so `Float64s` does not depend on
the sorting algorithm. -/
theorem Float64s_unique (a s : List ℚ) (hs : s.Sorted (· ≤ ·)) (hp : s.Perm a) :
    Float64s a = s :=
  List.eq_of_perm_of_sorted ((Float64s_perm a).trans hp.symm) (Float64s_sorted a) hs

/-- The value `Median` returns, with the index expressions resolved. -/
theorem Median_of_sorted (xs s : List ℚ) (hs : Float64s xs = s) (h0 : xs ≠ []) :
    ∃ (h1 : xs.length / 2 - 1 < s.length) (h2 : xs.length / 2 < s.length),
      (xs.length % 2 = 1 → Median xs = some (Float64.finite s[xs.length / 2])) ∧
      (xs.length % 2 = 0 → Median xs
        = some (Float64.half (Float64.add s[xs.length / 2 - 1] s[xs.length / 2]))) := by
  have hlen : 0 < xs.length := List.length_pos.mpr h0
  have hsl : s.length = xs.length := by rw [← hs]; exact length_Float64s xs
  have hmid : xs.length / 2 < s.length := by omega
  have hmid1 : xs.length / 2 - 1 < s.length := by omega
  refine ⟨hmid1, hmid, ?_, ?_⟩
  · intro h
    unfold Median
    simp only [copy_make, hs]
    simp [Nat.ne_of_gt hlen, h, List.getElem?_eq_getElem hmid]
  · intro h
    unfold Median
    simp only [copy_make, hs]
    simp [Nat.ne_of_gt hlen, h, List.getElem?_eq_getElem hmid, List.getElem?_eq_getElem hmid1]

theorem Median_nil : Median [] = some (Float64.finite 0) := by simp [Median]

theorem Median_cases (xs : List ℚ) (h0 : xs ≠ []) :
    (xs.length % 2 = 1 ∧ ∃ x ∈ xs, Median xs = some (Float64.finite x)) ∨
    (xs.length % 2 = 0 ∧ ∃ a ∈ xs, ∃ b ∈ xs,
      Median xs = some (Float64.half (Float64.add a b))) := by
  obtain ⟨h1, h2, hodd, heven⟩ := Median_of_sorted xs (Float64s xs) rfl h0
  have hmem : ∀ i (h : i < (Float64s xs).length), (Float64s xs)[i] ∈ xs := fun i h =>
    (Float64s_perm xs).subset (List.getElem_mem h)
  rcases Nat.mod_two_eq_zero_or_one xs.length with h | h
  · right
    exact ⟨h, _, hmem _ h1, _, hmem _ h2, heven h⟩
  · left
    exact ⟨h, _, hmem _ h2, hodd h⟩

theorem Median_isSome (xs : List ℚ) : ∃ m, Median xs = some m := by
  by_cases h0 : xs = []
  · exact ⟨_, by rw [h0]; exact Median_nil⟩
  · rcases Median_cases xs h0 with ⟨_, x, _, h⟩ | ⟨_, a, _, b, _, h⟩
    · exact ⟨_, h⟩
    · exact ⟨_, h⟩

/-- The float64 mean of two values between the float64 values `lo` and `hi` lies between
them, when neither `lo + lo` nor `hi + hi` overflows. -/
theorem half_add_bounds (lo hi a b : ℚ) (hlo : IsFloat64 lo) (hhi : IsFloat64 hi)
    (hlo2 : |lo| ≤ maxFloat64 / 2) (hhi2 : |hi| ≤ maxFloat64 / 2)
    (ha : lo ≤ a ∧ a ≤ hi) (hb : lo ≤ b ∧ b ≤ hi) :
    ∃ q, Float64.half (Float64.add a b) = Float64.finite q ∧ lo ≤ q ∧ q ≤ hi := by
  have hup := round64_le_of_le (a + b) (hi + hi) (hhi.double hhi2) (by linarith [ha.2, hb.2])
  have hdn := le_round64_of_le (a + b) (lo + lo) (hlo.double hlo2) (by linarith [ha.1, hb.1])
  have hsum : ∃ t, round64 (a + b) = Float64.finite t ∧ lo + lo ≤ t ∧ t ≤ hi + hi := by
    rcases hup with h1 | ⟨q, h1, h1'⟩
    · rcases hdn with h2 | ⟨q', h2, _⟩
      · rw [h1] at h2; cases h2
      · rw [h1] at h2; cases h2
    · rcases hdn with h2 | ⟨q', h2, h2'⟩
      · rw [h1] at h2; cases h2
      · rw [h1] at h2
        have : q = q' := Float64.finite.inj h2
        subst this
        exact ⟨q, h1, h2', h1'⟩
  obtain ⟨t, ht, ht1, ht2⟩ := hsum
  unfold Float64.add
  rw [ht]
  show ∃ q, round64 (t / 2) = Float64.finite q ∧ lo ≤ q ∧ q ≤ hi
  have hup' := round64_le_of_le (t / 2) hi hhi (by linarith)
  have hdn' := le_round64_of_le (t / 2) lo hlo (by linarith)
  rcases hup' with h1 | ⟨q, h1, h1'⟩
  · rcases hdn' with h2 | ⟨q', h2, _⟩
    · rw [h1] at h2; cases h2
    · rw [h1] at h2; cases h2
  · rcases hdn' with h2 | ⟨q', h2, h2'⟩
    · rw [h1] at h2; cases h2
    · rw [h1] at h2
      have : q = q' := Float64.finite.inj h2
      subst this
      exact ⟨q, h1, h2', h1'⟩

/-- The value of `Median` lies between float64 bounds of the entries, when the length is
odd or twice a bound does not overflow. -/
theorem Median_bounds (xs : List ℚ) (h0 : xs ≠ []) (lo hi : ℚ) (m : Float64)
    (hlo : IsFloat64 lo) (hhi : IsFloat64 hi)
    (hsafe : xs.length % 2 = 1 ∨ (|lo| ≤ maxFloat64 / 2 ∧ |hi| ≤ maxFloat64 / 2))
    (hb : ∀ x ∈ xs, lo ≤ x ∧ x ≤ hi) (hm : Median xs = some m) :
    ∃ q, m = Float64.finite q ∧ lo ≤ q ∧ q ≤ hi := by
  rcases Median_cases xs h0 with ⟨_, x, hx, h⟩ | ⟨heven, a, ha, b, hb', h⟩
  · rw [h] at hm
    exact ⟨x, (Option.some.inj hm).symm, hb x hx⟩
  · rw [h] at hm
    rw [← Option.some.inj hm]
    rcases hsafe with hodd | ⟨h1, h2⟩
    · omega
    · exact half_add_bounds lo hi a b hlo hhi h1 h2 (hb a ha) (hb b hb')

/-! ### `MedianOn` -/

theorem read_append_left (mem : Memory) (x : List ℚ) (a : Nat) (h : a < mem.length) :
    Memory.read (mem ++ [x]) a = mem.read a := by
  simp [Memory.read, List.getElem?_append_left h]

theorem read_set_eq (mem : Memory) (x : List ℚ) (a : Nat) (h : a < mem.length) :
    Memory.read (mem.set a x) a = x := by
  simp [Memory.read, h]

theorem read_append_length (mem : Memory) (x : List ℚ) :
    Memory.read (mem ++ [x]) mem.length = x := by
  simp [Memory.read]

theorem read_length_pos (mem : Memory) (a : Nat) (h : (mem.read a).length ≠ 0) :
    a < mem.length := by
  by_contra hc
  have : mem[a]? = none := List.getElem?_eq_none (by omega)
  simp [Memory.read, this] at h

/-- The memory after `MedianOn`: the arrays of before, and after them at most the
private array `sorted`. -/
theorem MedianOn_memory (mem : Memory) (data : Nat) :
    (MedianOn mem data).1 = mem ∨
      (MedianOn mem data).1 = mem ++ [Float64s (mem.read data)] := by
  unfold MedianOn
  by_cases h0 : (mem.read data).length = 0
  · left; simp [h0]
  · right
    have hd : data < mem.length := read_length_pos mem data h0
    have e1 : Memory.read (mem ++ [make (mem.read data).length]) data = mem.read data :=
      read_append_left _ _ _ hd
    have e2 : Memory.read (mem ++ [make (mem.read data).length]) mem.length
        = make (mem.read data).length := read_append_length _ _
    simp only [h0, if_false, e1, e2, copy_make]
    have e3 : Memory.read ((mem ++ [make (mem.read data).length]).set mem.length (mem.read data))
        mem.length = mem.read data := read_set_eq _ _ _ (by simp)
    simp only [e3]
    have e4 : ((mem ++ [make (mem.read data).length]).set mem.length (mem.read data)).set
        mem.length (Float64s (mem.read data)) = mem ++ [Float64s (mem.read data)] := by
      simp [List.set_append_right]
    simp only [e4]
    split
    · split <;> rfl
    · rfl

theorem MedianOn_value (mem : Memory) (data : Nat) :
    (MedianOn mem data).2 = Median (mem.read data) := by
  unfold MedianOn Median
  by_cases h0 : (mem.read data).length = 0
  · simp [h0]
  · have hd : data < mem.length := read_length_pos mem data h0
    have e1 : Memory.read (mem ++ [make (mem.read data).length]) data = mem.read data :=
      read_append_left _ _ _ hd
    have e2 : Memory.read (mem ++ [make (mem.read data).length]) mem.length
        = make (mem.read data).length := read_append_length _ _
    simp only [h0, if_false, e1, e2, copy_make]
    have e3 : Memory.read ((mem ++ [make (mem.read data).length]).set mem.length (mem.read data))
        mem.length = mem.read data := read_set_eq _ _ _ (by simp)
    simp only [e3]
    have e4 : ((mem ++ [make (mem.read data).length]).set mem.length (mem.read data)).set
        mem.length (Float64s (mem.read data)) = mem ++ [Float64s (mem.read data)] := by
      simp [List.set_append_right]
    simp only [e4, read_append_length]
    split
    · split <;> simp_all
    · rfl

/-! ## The worker goroutines -/

/-! ### Lists of workers -/

theorem set_split (ws : List Worker) (w : Nat) (x : Worker) (h : ws[w]? = some x) :
    ∃ A C, ws = A ++ x :: C ∧ A.length = w ∧ ∀ y, ws.set w y = A ++ y :: C := by
  induction ws generalizing w with
  | nil => simp at h
  | cons a t ih =>
    cases w with
    | zero =>
      simp at h
      exact ⟨[], t, by simp [h], rfl, fun y => by simp⟩
    | succ w =>
      simp at h
      obtain ⟨A, C, h1, h2, h3⟩ := ih w h
      exact ⟨a :: A, C, by simp [h1], by simp [h2], fun y => by simp [h3 y]⟩

theorem inflight_append (A C : List Worker) : inflight (A ++ C) = inflight A ++ inflight C := by
  simp [inflight]

theorem inflight_cons_some (x : Worker) (C : List Worker) (i : Nat) (h : x.trial = some i) :
    inflight (x :: C) = i :: inflight C := by
  simp [inflight, List.filterMap_cons, h]

theorem inflight_cons_none (x : Worker) (C : List Worker) (h : x.trial = none) :
    inflight (x :: C) = inflight C := by
  simp [inflight, List.filterMap_cons, h]

theorem inflight_cons_congr (x y : Worker) (C : List Worker) (h : y.trial = x.trial) :
    inflight (y :: C) = inflight (x :: C) := by
  simp [inflight, List.filterMap_cons, h]

theorem mem_inflight (ws : List Worker) (w : Nat) (x : Worker) (i : Nat)
    (h : ws[w]? = some x) (ht : x.trial = some i) : i ∈ inflight ws := by
  unfold inflight
  rw [List.mem_filterMap]
  exact ⟨x, List.mem_iff_getElem?.mpr ⟨w, h⟩, ht⟩

theorem inflight_set_same (ws : List Worker) (w : Nat) (x y : Worker)
    (h : ws[w]? = some x) (ht : y.trial = x.trial) :
    inflight (ws.set w y) = inflight ws := by
  obtain ⟨A, C, h1, _, h3⟩ := set_split ws w x h
  rw [h3 y, h1, inflight_append, inflight_append, inflight_cons_congr x y C ht]

theorem inflight_set_start (ws : List Worker) (w : Nat) (x y : Worker) (i : Nat)
    (h : ws[w]? = some x) (hx : x.trial = none) (hy : y.trial = some i) :
    (inflight (ws.set w y)).Perm (i :: inflight ws) := by
  obtain ⟨A, C, h1, _, h3⟩ := set_split ws w x h
  rw [h3 y, h1, inflight_append, inflight_append, inflight_cons_some y C i hy,
    inflight_cons_none x C hx]
  exact List.perm_middle

theorem inflight_set_stop (ws : List Worker) (w : Nat) (x y : Worker) (i : Nat)
    (h : ws[w]? = some x) (hx : x.trial = some i) (hy : y.trial = none) :
    (inflight ws).Perm (i :: inflight (ws.set w y)) := by
  obtain ⟨A, C, h1, _, h3⟩ := set_split ws w x h
  rw [h3 y, h1, inflight_append, inflight_append, inflight_cons_some x C i hx,
    inflight_cons_none y C hy]
  exact List.perm_middle

/-- Two workers never process the same trial. -/
theorem trial_inj (ws : List Worker) (hnd : (inflight ws).Nodup) (w w' i : Nat)
    (x x' : Worker) (h : ws[w]? = some x) (h' : ws[w']? = some x')
    (ht : x.trial = some i) (ht' : x'.trial = some i) : w = w' := by
  induction ws generalizing w w' with
  | nil => simp at h
  | cons a t ih =>
    cases w with
    | zero =>
      cases w' with
      | zero => rfl
      | succ w' =>
        exfalso
        simp at h h'
        subst h
        rw [inflight_cons_some a t i ht] at hnd
        exact (List.nodup_cons.mp hnd).1 (mem_inflight t w' x' i h' ht')
    | succ w =>
      cases w' with
      | zero =>
        exfalso
        simp at h h'
        subst h'
        rw [inflight_cons_some a t i ht'] at hnd
        exact (List.nodup_cons.mp hnd).1 (mem_inflight t w x i h ht)
      | succ w' =>
        simp at h h'
        have hnd' : (inflight t).Nodup := by
          cases hta : a.trial with
          | none => rwa [inflight_cons_none a t hta] at hnd
          | some k =>
            rw [inflight_cons_some a t k hta] at hnd
            exact (List.nodup_cons.mp hnd).2
        rw [ih hnd' w w' h h']

theorem cost_set (f : Worker → Nat) (ws : List Worker) (w : Nat) (x y : Worker)
    (h : ws[w]? = some x) :
    ((ws.set w y).map f).sum + f x = (ws.map f).sum + f y := by
  obtain ⟨A, C, h1, _, h3⟩ := set_split ws w x h
  rw [h3 y, h1]
  simp
  omega

/-! ### The recorded draws -/

theorem drawsOf_append (s : State) (ds : List (Nat × Nat)) (i : Nat) :
    State.drawsOf { s with draws := s.draws ++ ds } i
      = s.drawsOf i ++ (ds.filter (fun p => decide (p.1 = i))).map Prod.snd := by
  simp [State.drawsOf]

theorem drawsOf_nil_of_not_received (s : State) (i : Nat)
    (h : ∀ p ∈ s.draws, p.1 ∈ s.received) (hi : i ∉ s.received) : s.drawsOf i = [] := by
  unfold State.drawsOf
  rw [List.map_eq_nil_iff, List.filter_eq_nil_iff]
  intro p hp hpi
  simp at hpi
  exact hi (hpi ▸ h p hp)

/-- The five kinds of step. -/
theorem step_cases (data : List ℚ) (e : Event) (s s' : State) (h : step data e s = some s') :
    (s.workers[e.w]? = some Worker.receiving ∧ s.ch = [] ∧
      s' = { s with workers := s.workers.set e.w Worker.done }) ∨
    (∃ i rest, s.workers[e.w]? = some Worker.receiving ∧ s.ch = i :: rest ∧
      s' = { s with ch := rest,
                    workers := s.workers.set e.w (Worker.sampling i 0 (make data.length)),
                    received := s.received ++ [i] }) ∨
    (∃ i j sample, ∃ hr : e.r < data.length,
      s.workers[e.w]? = some (Worker.sampling i j sample) ∧ j < data.length ∧
      j < sample.length ∧
      s' = { s with workers :=
                      s.workers.set e.w (Worker.sampling i (j + 1) (sample.set j data[e.r])),
                    draws := s.draws ++ [(i, e.r)] }) ∨
    (∃ i j sample m, s.workers[e.w]? = some (Worker.sampling i j sample) ∧
      ¬ j < data.length ∧ Median sample = some m ∧ i < s.medians.length ∧
      s' = { s with medians := s.medians.set i m,
                    workers := s.workers.set e.w Worker.receiving,
                    stored := s.stored ++ [(i, sample)] }) ∨
    (∃ i j sample, s.workers[e.w]? = some (Worker.sampling i j sample) ∧
      ((j < data.length ∧ ¬ j < sample.length) ∨
       (¬ j < data.length ∧ (Median sample = none ∨ ¬ i < s.medians.length))) ∧
      s' = { s with workers := s.workers.set e.w Worker.panicked }) := by
  unfold step at h
  cases hw : s.workers[e.w]? with
  | none => simp [hw] at h
  | some x =>
    cases x with
    | done => simp [hw] at h
    | panicked => simp [hw] at h
    | receiving =>
      cases hch : s.ch with
      | nil =>
        simp [hw, hch] at h
        left
        exact ⟨rfl, rfl, h.symm⟩
      | cons i rest =>
        simp [hw, hch] at h
        right; left
        exact ⟨i, rest, rfl, rfl, h.symm⟩
    | sampling i j sample =>
      simp only [hw] at h
      by_cases hj : j < data.length
      · by_cases hr : e.r < data.length
        · by_cases hs : j < sample.length
          · simp [hj, hr, hs] at h
            right; right; left
            exact ⟨i, j, sample, hr, rfl, hj, hs, h.symm⟩
          · simp [hj, hr, hs] at h
            right; right; right; right
            exact ⟨i, j, sample, rfl, Or.inl ⟨hj, hs⟩, h.symm⟩
        · simp [hj, hr] at h
      · cases hm : Median sample with
        | none =>
          simp [hj, hm] at h
          right; right; right; right
          exact ⟨i, j, sample, rfl, Or.inr ⟨hj, Or.inl hm⟩, h.symm⟩
        | some m =>
          by_cases hi : i < s.medians.length
          · simp [hj, hm, hi] at h
            right; right; right; left
            exact ⟨i, j, sample, m, rfl, hj, hm, hi, h.symm⟩
          · simp [hj, hm, hi] at h
            right; right; right; right
            exact ⟨i, j, sample, rfl, Or.inr ⟨hj, Or.inr hi⟩, h.symm⟩

/-! ## The invariant of a run -/

theorem Inv.nodup_received {data : List ℚ} {B W : Nat} {s : State} (h : Inv data B W s) :
    s.received.Nodup := by
  have := List.nodup_range B
  rw [← h.queue] at this
  exact (List.nodup_append.mp this).1

theorem Inv.nodup_owned {data : List ℚ} {B W : Nat} {s : State} (h : Inv data B W s) :
    (inflight s.workers ++ s.processed).Nodup :=
  (h.owned.nodup_iff).mpr h.nodup_received

theorem Inv.received_lt {data : List ℚ} {B W : Nat} {s : State} (h : Inv data B W s)
    (i : Nat) (hi : i ∈ s.received) : i < B := by
  have : i ∈ List.range B := by
    rw [← h.queue]
    exact List.mem_append_left _ hi
  exact List.mem_range.mp this

theorem getElem?_set_cases (ws : List Worker) (w w' : Nat) (y z : Worker)
    (h : (ws.set w y)[w']? = some z) : (w' = w ∧ z = y) ∨ (w' ≠ w ∧ ws[w']? = some z) := by
  by_cases hw : w = w'
  · subst hw
    left
    rw [List.getElem?_set_self'] at h
    cases hx : ws[w]? with
    | none => simp [hx] at h
    | some x =>
      simp [hx] at h
      exact ⟨rfl, h.symm⟩
  · right
    rw [List.getElem?_set_ne hw] at h
    exact ⟨fun h' => hw h'.symm, h⟩

theorem Inv_start (data : List ℚ) (B W : Nat) : Inv data B W (start B W) := by
  constructor
  · simp [start]
  · simp [start, makeValues, make]
  · simp [start]
  · simp [start, inflight, State.processed, List.filterMap_replicate, Worker.trial]
  · intro w i j sample h
    simp [start, List.getElem?_replicate] at h
  · simp [start]
  · simp [start]
  · simp [start, List.mem_replicate]
  · simp [start, List.mem_replicate]

theorem Inv_exit (data : List ℚ) (B W : Nat) (s : State) (w : Nat) (hinv : Inv data B W s)
    (hw : s.workers[w]? = some Worker.receiving) (hch : s.ch = []) :
    Inv data B W { s with workers := s.workers.set w Worker.done } := by
  constructor
  · simpa using hinv.workers_length
  · exact hinv.medians_length
  · exact hinv.queue
  · show (inflight (s.workers.set w Worker.done) ++ s.processed).Perm s.received
    rw [inflight_set_same s.workers w Worker.receiving Worker.done hw rfl]
    exact hinv.owned
  · intro w' i j sample h
    rcases getElem?_set_cases _ _ _ _ _ h with ⟨_, h2⟩ | ⟨_, h2⟩
    · cases h2
    · exact hinv.sampling w' i j sample h2
  · exact hinv.draws_received
  · exact hinv.stored
  · intro hp
    rcases List.mem_or_eq_of_mem_set hp with h1 | h1
    · exact hinv.no_panic h1
    · cases h1
  · intro _
    exact hch

theorem Inv_receive (data : List ℚ) (B W : Nat) (s : State) (w i : Nat) (rest : List Nat)
    (hinv : Inv data B W s)
    (hw : s.workers[w]? = some Worker.receiving) (hch : s.ch = i :: rest) :
    Inv data B W { s with ch := rest,
                          workers := s.workers.set w (Worker.sampling i 0 (make data.length)),
                          received := s.received ++ [i] } := by
  have hq := hinv.queue
  rw [hch] at hq
  have hnd : (s.received ++ i :: rest).Nodup := hq ▸ List.nodup_range B
  have hi : i ∉ s.received := by
    intro hmem
    have := (List.nodup_append.mp hnd).2.2
    exact this hmem (List.mem_cons_self _ _) 
  constructor
  · simpa using hinv.workers_length
  · exact hinv.medians_length
  · show (s.received ++ [i]) ++ rest = List.range B
    simpa using hq
  · show (inflight (s.workers.set w (Worker.sampling i 0 (make data.length))) ++ s.processed).Perm
      (s.received ++ [i])
    have h1 := inflight_set_start s.workers w _ (Worker.sampling i 0 (make data.length)) i hw rfl rfl
    have h2 : (i :: (inflight s.workers ++ s.processed)).Perm (i :: s.received) :=
      List.Perm.cons i hinv.owned
    exact ((h1.append_right _).trans h2).trans (List.perm_append_singleton i s.received).symm
  · intro w' i' j sample h
    rcases getElem?_set_cases _ _ _ _ _ h with ⟨_, h2⟩ | ⟨_, h2⟩
    · cases h2
      have hd : s.drawsOf i = [] :=
        drawsOf_nil_of_not_received s i hinv.draws_received hi
      refine ⟨Nat.zero_le _, length_make _, ?_, ?_⟩
      · show (List.take 0 (make data.length)).map some = (s.drawsOf i).map _
        simp [hd]
      · show (s.drawsOf i).length = 0
        simp [hd]
    · exact hinv.sampling w' i' j sample h2
  · intro p hp
    exact List.mem_append_left _ (hinv.draws_received p hp)
  · exact hinv.stored
  · intro hp
    rcases List.mem_or_eq_of_mem_set hp with h1 | h1
    · exact hinv.no_panic h1
    · cases h1
  · intro hd
    exfalso
    rcases List.mem_or_eq_of_mem_set hd with h1 | h1
    · have := hinv.closed h1
      rw [hch] at this
      cases this
    · cases h1

theorem take_succ_set (l : List ℚ) (j : Nat) (v : ℚ) (h : j < l.length) :
    (l.set j v).take (j + 1) = l.take j ++ [v] := by
  induction l generalizing j with
  | nil => simp at h
  | cons a t ih =>
    cases j with
    | zero => simp
    | succ j =>
      simp at h
      simp [ih j h]

theorem Inv.trial_received {data : List ℚ} {B W : Nat} {s : State} (h : Inv data B W s)
    (w i j : Nat) (sample : List ℚ) (hw : s.workers[w]? = some (Worker.sampling i j sample)) :
    i ∈ s.received :=
  h.owned.subset (List.mem_append_left _ (mem_inflight s.workers w _ i hw rfl))

theorem Inv.trial_not_processed {data : List ℚ} {B W : Nat} {s : State} (h : Inv data B W s)
    (w i j : Nat) (sample : List ℚ) (hw : s.workers[w]? = some (Worker.sampling i j sample)) :
    i ∉ s.processed := by
  intro hp
  have hnd := h.nodup_owned
  exact (List.nodup_append.mp hnd).2.2 (mem_inflight s.workers w _ i hw rfl) hp

theorem Inv.trial_ne {data : List ℚ} {B W : Nat} {s : State} (h : Inv data B W s)
    (w w' i i' j j' : Nat) (sample sample' : List ℚ)
    (hw : s.workers[w]? = some (Worker.sampling i j sample))
    (hw' : s.workers[w']? = some (Worker.sampling i' j' sample')) (hne : w' ≠ w) : i' ≠ i := by
  intro hi
  subst hi
  have hnd := (List.nodup_append.mp h.nodup_owned).1
  exact hne (trial_inj s.workers hnd w' w i' _ _ hw' hw rfl rfl)

theorem drawsOf_draw_ne (s : State) (ws : List Worker) (i r i' : Nat) (h : i' ≠ i) :
    State.drawsOf { s with workers := ws, draws := s.draws ++ [(i, r)] } i' = s.drawsOf i' := by
  simp [State.drawsOf, List.filter_cons, Ne.symm h]

theorem drawsOf_draw_eq (s : State) (ws : List Worker) (i r : Nat) :
    State.drawsOf { s with workers := ws, draws := s.draws ++ [(i, r)] } i
      = s.drawsOf i ++ [r] := by
  simp [State.drawsOf, List.filter_cons]

theorem Inv_draw (data : List ℚ) (B W : Nat) (s : State) (w r i j : Nat) (sample : List ℚ)
    (hinv : Inv data B W s) (hr : r < data.length)
    (hw : s.workers[w]? = some (Worker.sampling i j sample)) (hj : j < data.length) :
    Inv data B W { s with workers :=
                            s.workers.set w (Worker.sampling i (j + 1) (sample.set j data[r])),
                          draws := s.draws ++ [(i, r)] } := by
  obtain ⟨_, hlen, htake, hdl⟩ := hinv.sampling w i j sample hw
  constructor
  · simpa using hinv.workers_length
  · exact hinv.medians_length
  · exact hinv.queue
  · show (inflight (s.workers.set w (Worker.sampling i (j + 1) (sample.set j data[r])))
      ++ s.processed).Perm s.received
    rw [inflight_set_same s.workers w (Worker.sampling i j sample)
      (Worker.sampling i (j + 1) (sample.set j data[r])) hw rfl]
    exact hinv.owned
  · intro w' i' j' sample' h
    rcases getElem?_set_cases _ _ _ _ _ h with ⟨_, h2⟩ | ⟨hne, h2⟩
    · cases h2
      rw [drawsOf_draw_eq]
      refine ⟨hj, by simp [hlen], ?_, by simp [hdl]⟩
      rw [take_succ_set sample j _ (by omega)]
      simp [htake, List.getElem?_eq_getElem hr]
    · have hi : i' ≠ i := hinv.trial_ne w w' i i' j j' sample sample' hw h2 hne
      rw [drawsOf_draw_ne s _ i r i' hi]
      exact hinv.sampling w' i' j' sample' h2
  · intro p hp
    rcases List.mem_append.mp hp with h1 | h1
    · exact hinv.draws_received p h1
    · simp at h1
      subst h1
      exact hinv.trial_received w i j sample hw
  · intro p hp
    have hi : p.1 ≠ i := by
      intro hpi
      exact hinv.trial_not_processed w i j sample hw (hpi ▸ List.mem_map_of_mem Prod.fst hp)
    rw [drawsOf_draw_ne s _ i r p.1 hi]
    exact hinv.stored p hp
  · intro hp
    rcases List.mem_or_eq_of_mem_set hp with h1 | h1
    · exact hinv.no_panic h1
    · cases h1
  · intro hd
    rcases List.mem_or_eq_of_mem_set hd with h1 | h1
    · exact hinv.closed h1
    · cases h1

theorem Inv_store (data : List ℚ) (B W : Nat) (s : State) (w i j : Nat) (sample : List ℚ)
    (m : Float64) (hinv : Inv data B W s)
    (hw : s.workers[w]? = some (Worker.sampling i j sample)) (hj : ¬ j < data.length)
    (hm : Median sample = some m) (hi : i < s.medians.length) :
    Inv data B W { s with medians := s.medians.set i m,
                          workers := s.workers.set w Worker.receiving,
                          stored := s.stored ++ [(i, sample)] } := by
  obtain ⟨hjn, hlen, htake, hdl⟩ := hinv.sampling w i j sample hw
  constructor
  · simpa using hinv.workers_length
  · simpa using hinv.medians_length
  · exact hinv.queue
  · show (inflight (s.workers.set w Worker.receiving) ++ (s.stored ++ [(i, sample)]).map Prod.fst).Perm
      s.received
    have h1 := inflight_set_stop s.workers w (Worker.sampling i j sample) Worker.receiving i hw rfl rfl
    have h2 : (inflight (s.workers.set w Worker.receiving) ++ (s.stored ++ [(i, sample)]).map Prod.fst).Perm
        (i :: inflight (s.workers.set w Worker.receiving) ++ s.processed) := by
      rw [List.map_append, ← List.append_assoc]
      exact (List.perm_append_singleton i _).trans (by simp [State.processed])
    exact h2.trans ((h1.symm.append_right _).trans hinv.owned)
  · intro w' i' j' sample' h
    rcases getElem?_set_cases _ _ _ _ _ h with ⟨_, h2⟩ | ⟨_, h2⟩
    · cases h2
    · exact hinv.sampling w' i' j' sample' h2
  · exact hinv.draws_received
  · intro p hp
    rcases List.mem_append.mp hp with h1 | h1
    · have hpi : p.1 ≠ i := by
        intro hpi
        exact hinv.trial_not_processed w i j sample hw (hpi ▸ List.mem_map_of_mem Prod.fst h1)
      obtain ⟨a, b, c⟩ := hinv.stored p h1
      refine ⟨?_, b, c⟩
      show (s.medians.set i m)[p.1]? = Median p.2
      rw [List.getElem?_set_ne (Ne.symm hpi)]
      exact a
    · simp at h1
      subst h1
      refine ⟨?_, hlen, ?_⟩
      · show (s.medians.set i m)[i]? = Median sample
        rw [List.getElem?_set_self hi, hm]
      · show sample.map some = (s.drawsOf i).map _
        rw [← htake, List.take_of_length_le (by omega)]
  · intro hp
    rcases List.mem_or_eq_of_mem_set hp with h1 | h1
    · exact hinv.no_panic h1
    · cases h1
  · intro hd
    rcases List.mem_or_eq_of_mem_set hd with h1 | h1
    · exact hinv.closed h1
    · cases h1

/-- A step of a run preserves the invariant; in particular no index expression panics. -/
theorem Inv_step (data : List ℚ) (B W : Nat) (e : Event) (s s' : State)
    (hinv : Inv data B W s) (h : step data e s = some s') : Inv data B W s' := by
  rcases step_cases data e s s' h with ⟨hw, hch, rfl⟩ | ⟨i, rest, hw, hch, rfl⟩ |
    ⟨i, j, sample, hr, hw, hj, _, rfl⟩ | ⟨i, j, sample, m, hw, hj, hm, hi, rfl⟩ |
    ⟨i, j, sample, hw, hbad, _⟩
  · exact Inv_exit data B W s e.w hinv hw hch
  · exact Inv_receive data B W s e.w i rest hinv hw hch
  · exact Inv_draw data B W s e.w e.r i j sample hinv hr hw hj
  · exact Inv_store data B W s e.w i j sample m hinv hw hj hm hi
  · exfalso
    obtain ⟨_, hlen, _, _⟩ := hinv.sampling e.w i j sample hw
    rcases hbad with ⟨h1, h2⟩ | ⟨_, h2 | h2⟩
    · omega
    · obtain ⟨m, hm⟩ := Median_isSome sample
      rw [hm] at h2
      cases h2
    · have := hinv.received_lt i (hinv.trial_received e.w i j sample hw)
      rw [hinv.medians_length] at h2
      exact h2 this

theorem Inv_exec (data : List ℚ) (B W : Nat) (es : List Event) (s s' : State)
    (hinv : Inv data B W s) (h : exec data es s = some s') : Inv data B W s' := by
  induction es generalizing s with
  | nil =>
    simp [exec] at h
    exact h ▸ hinv
  | cons e es ih =>
    simp only [exec] at h
    cases hs : step data e s with
    | none => simp [hs] at h
    | some s1 =>
      simp [hs] at h
      exact ih s1 (Inv_step data B W e s s1 hinv hs) h

/-! ## Runs end -/

theorem finished_iff (s : State) : finished s = true ↔ ∀ x ∈ s.workers, x = Worker.done := by
  simp [finished, List.all_eq_true]

theorem inflight_of_finished (s : State) (h : finished s = true) : inflight s.workers = [] := by
  rw [finished_iff] at h
  unfold inflight
  rw [List.filterMap_eq_nil_iff]
  intro x hx
  rw [h x hx]
  rfl

theorem received_of_finished (data : List ℚ) (B W : Nat) (s : State) (hinv : Inv data B W s)
    (hW : 0 < W) (h : finished s = true) : s.received = List.range B ∧ s.ch = [] := by
  rw [finished_iff] at h
  have hne : s.workers ≠ [] := by
    intro h0
    have := hinv.workers_length
    rw [h0] at this
    simp at this
    omega
  obtain ⟨x, hx⟩ := List.exists_mem_of_ne_nil _ hne
  have hch : s.ch = [] := hinv.closed (h x hx ▸ hx)
  have := hinv.queue
  rw [hch, List.append_nil] at this
  exact ⟨this, hch⟩

theorem processed_of_finished (data : List ℚ) (B W : Nat) (s : State) (hinv : Inv data B W s)
    (hW : 0 < W) (h : finished s = true) : s.processed.Perm (List.range B) := by
  have h1 := hinv.owned
  rw [inflight_of_finished s h, (received_of_finished data B W s hinv hW h).1] at h1
  simpa using h1

/-- In the state in which `wg.Wait()` returns, every trial has been stored once, with the
median of the sample that was built from its draws. -/
theorem stored_of_finished (data : List ℚ) (B W : Nat) (s : State) (hinv : Inv data B W s)
    (hW : 0 < W) (h : finished s = true) (i : Nat) (hi : i < B) :
    ∃ sample, (i, sample) ∈ s.stored ∧ s.medians[i]? = Median sample ∧
      sample.length = data.length ∧
      sample.map some = (s.drawsOf i).map (fun r => data[r]?) := by
  have hmem : i ∈ s.processed :=
    (processed_of_finished data B W s hinv hW h).symm.subset (List.mem_range.mpr hi)
  obtain ⟨p, hp, hpi⟩ := List.mem_map.mp hmem
  obtain ⟨a, b, c⟩ := hinv.stored p hp
  subst hpi
  exact ⟨p.2, hp, a, b, c⟩

/-! ### Termination -/

theorem step_remaining (data : List ℚ) (e : Event) (s s' : State)
    (h : step data e s = some s') :
    s'.remaining data.length < s.remaining data.length := by
  unfold State.remaining
  rcases step_cases data e s s' h with ⟨hw, hch, rfl⟩ | ⟨i, rest, hw, hch, rfl⟩ |
    ⟨i, j, sample, hr, hw, hj, _, rfl⟩ | ⟨i, j, sample, m, hw, hj, hm, hi, rfl⟩ |
    ⟨i, j, sample, hw, hbad, rfl⟩
  · have := cost_set (Worker.cost data.length) s.workers e.w _ Worker.done hw
    simp only [Worker.cost] at this ⊢
    omega
  · have := cost_set (Worker.cost data.length) s.workers e.w _
      (Worker.sampling i 0 (make data.length)) hw
    simp only [Worker.cost, hch, List.length_cons] at this ⊢
    have e1 : (rest.length + 1) * (data.length + 2)
        = rest.length * (data.length + 2) + (data.length + 2) := by ring
    omega
  · have := cost_set (Worker.cost data.length) s.workers e.w _
      (Worker.sampling i (j + 1) (sample.set j data[e.r])) hw
    simp only [Worker.cost] at this ⊢
    omega
  · have := cost_set (Worker.cost data.length) s.workers e.w _ Worker.receiving hw
    simp only [Worker.cost] at this ⊢
    omega
  · have := cost_set (Worker.cost data.length) s.workers e.w _ Worker.panicked hw
    simp only [Worker.cost] at this ⊢
    omega

/-- A run of `es.length` steps uses up as many of the steps that were left. -/
theorem exec_length (data : List ℚ) (es : List Event) (s s' : State)
    (h : exec data es s = some s') :
    es.length + s'.remaining data.length ≤ s.remaining data.length := by
  induction es generalizing s with
  | nil =>
    simp [exec] at h
    simp [h]
  | cons e es ih =>
    simp only [exec] at h
    cases hs : step data e s with
    | none => simp [hs] at h
    | some s1 =>
      simp [hs] at h
      have h1 := ih s1 h
      have h2 := step_remaining data e s s1 hs
      simp only [List.length_cons]
      omega

theorem remaining_start (n B W : Nat) : (start B W).remaining n = B * (n + 2) + W := by
  simp [State.remaining, start, Worker.cost]

/-- A goroutine that has not ended can take a step: no run is stuck before `wg.Wait()`
returns. -/
theorem progress (data : List ℚ) (s : State) (hp : Worker.panicked ∉ s.workers)
    (h : finished s = false) : ∃ e s', step data e s = some s' := by
  have h' : ¬ ∀ x ∈ s.workers, x = Worker.done := by
    rw [← finished_iff, h]
    simp
  push_neg at h'
  obtain ⟨x, hx, hxd⟩ := h'
  obtain ⟨k, hk⟩ := List.mem_iff_getElem?.mp hx
  cases x with
  | done => exact absurd rfl hxd
  | panicked => exact absurd hx hp
  | receiving =>
    refine ⟨⟨k, 0⟩, ?_⟩
    unfold step
    simp only [hk]
    cases s.ch with
    | nil => exact ⟨_, rfl⟩
    | cons i rest => exact ⟨_, rfl⟩
  | sampling i j sample =>
    refine ⟨⟨k, 0⟩, ?_⟩
    unfold step
    simp only [hk]
    by_cases hj : j < data.length
    · have h0 : 0 < data.length := by omega
      simp only [hj, if_true, h0, dite_true]
      split
      · exact ⟨_, rfl⟩
      · exact ⟨_, rfl⟩
    · simp only [hj, if_false]
      split
      · split
        · exact ⟨_, rfl⟩
        · exact ⟨_, rfl⟩
      · exact ⟨_, rfl⟩

theorem exec_append (data : List ℚ) (es es' : List Event) (s s1 s2 : State)
    (h1 : exec data es s = some s1) (h2 : exec data es' s1 = some s2) :
    exec data (es ++ es') s = some s2 := by
  induction es generalizing s with
  | nil =>
    simp [exec] at h1
    simpa [h1] using h2
  | cons e es ih =>
    simp only [exec, List.cons_append] at h1 ⊢
    cases hs : step data e s with
    | none => simp [hs] at h1
    | some s0 =>
      simp [hs] at h1 ⊢
      exact ih s0 h1

/-- Every run can be continued until `wg.Wait()` returns. -/
theorem exists_finish (data : List ℚ) (B W : Nat) (k : Nat) (s : State)
    (hk : s.remaining data.length ≤ k) (hinv : Inv data B W s) :
    ∃ es s', exec data es s = some s' ∧ finished s' = true := by
  induction k generalizing s with
  | zero =>
    cases hf : finished s with
    | true => exact ⟨[], s, rfl, hf⟩
    | false =>
      obtain ⟨e, s', hs⟩ := progress data s hinv.no_panic hf
      have := step_remaining data e s s' hs
      omega
  | succ k ih =>
    cases hf : finished s with
    | true => exact ⟨[], s, rfl, hf⟩
    | false =>
      obtain ⟨e, s1, hs⟩ := progress data s hinv.no_panic hf
      have hlt := step_remaining data e s s1 hs
      obtain ⟨es, s2, h2, hf2⟩ := ih s1 (by omega) (Inv_step data B W e s s1 hinv hs)
      exact ⟨e :: es, s2, by simp [exec, hs, h2], hf2⟩

theorem run_eq_some (data : List ℚ) (B W : Nat) (es : List Event) (s : State) :
    run data B W es = some s ↔ exec data es (start B W) = some s ∧ finished s = true := by
  unfold run
  cases h : exec data es (start B W) with
  | none => simp
  | some s1 =>
    by_cases hf : finished s1 = true
    · simp [hf]
      intro h1
      exact h1 ▸ hf
    · simp [hf]
      intro h1
      simpa [h1] using hf

theorem Inv_run (data : List ℚ) (B W : Nat) (es : List Event) (s : State)
    (h : run data B W es = some s) : Inv data B W s ∧ finished s = true := by
  rw [run_eq_some] at h
  exact ⟨Inv_exec data B W es _ s (Inv_start data B W) h.1, h.2⟩

theorem BootstrapConcurrent_eq_some (data : List ℚ) (B W : Nat) (es : List Event)
    (ms : List Float64) :
    BootstrapConcurrent data B W es = some ms ↔ ∃ s, run data B W es = some s ∧ s.medians = ms := by
  simp [BootstrapConcurrent]

/-- The values of `rand.Intn` a run records are those of its steps. -/
theorem draws_of_exec (data : List ℚ) (es : List Event) (s s' : State)
    (h : exec data es s = some s') :
    ∀ p ∈ s'.draws, p ∈ s.draws ∨ ∃ e ∈ es, p.2 = e.r := by
  induction es generalizing s with
  | nil =>
    simp [exec] at h
    intro p hp
    exact Or.inl (h ▸ hp)
  | cons e es ih =>
    simp only [exec] at h
    cases hs : step data e s with
    | none => simp [hs] at h
    | some s1 =>
      simp [hs] at h
      intro p hp
      rcases ih s1 h p hp with h1 | ⟨e', he', hpe⟩
      · rcases step_cases data e s s1 hs with ⟨hw, hch, rfl⟩ | ⟨i, rest, hw, hch, rfl⟩ |
          ⟨i, j, sample, hr, hw, hj, _, rfl⟩ | ⟨i, j, sample, m, hw, hj, hm, hi, rfl⟩ |
          ⟨i, j, sample, hw, hbad, rfl⟩
        · exact Or.inl h1
        · exact Or.inl h1
        · rcases List.mem_append.mp h1 with h2 | h2
          · exact Or.inl h2
          · simp at h2
            exact Or.inr ⟨e, List.mem_cons_self _ _, by simp [h2]⟩
        · exact Or.inl h1
        · exact Or.inl h1
      · exact Or.inr ⟨e', List.mem_cons_of_mem _ he', hpe⟩

/-! ## The single-threaded `Bootstrap` -/

theorem fillSample_append (data : List ℚ) (src : Nat → Nat) (js js' : List Nat)
    (st : List ℚ × Nat) :
    fillSample data src (js ++ js') st
      = (fillSample data src js st).bind (fillSample data src js') := by
  unfold fillSample
  rw [List.foldlM_append]
  rfl

theorem fillSample_single (data : List ℚ) (src : Nat → Nat) (j : Nat) (st : List ℚ × Nat)
    (h : src st.2 < data.length) (hj : j < st.1.length) :
    fillSample data src [j] st = some (st.1.set j data[src st.2], st.2 + 1) := by
  simp [fillSample, h, hj]

theorem fillSample_range (data : List ℚ) (src : Nat → Nat) (k0 m : Nat)
    (hm : m ≤ data.length) (hsrc : ∀ j < m, src (k0 + j) < data.length) :
    ∃ sample, fillSample data src (List.range m) (make data.length, k0) = some (sample, k0 + m) ∧
      sample.length = data.length ∧
      (sample.take m).map some = (List.range m).map (fun j => data[src (k0 + j)]?) := by
  induction m with
  | zero => exact ⟨make data.length, by simp [fillSample], length_make _, by simp⟩
  | succ m ih =>
    obtain ⟨sample, h1, h2, h3⟩ := ih (by omega) (fun j hj => hsrc j (by omega))
    have hs := hsrc m (by omega)
    refine ⟨sample.set m data[src (k0 + m)], ?_, by simp [h2], ?_⟩
    · rw [List.range_succ, fillSample_append, h1]
      simp only [Option.bind]
      rw [fillSample_single data src m (sample, k0 + m) hs (by simp; omega)]
      rfl
    · rw [take_succ_set sample m _ (by omega), List.range_succ]
      simp [h3, List.getElem?_eq_getElem hs]

theorem trialBody_eq (data : List ℚ) (src : Nat → Nat) (meds : List Float64) (k i : Nat)
    (hi : i < meds.length) (hsrc : ∀ j < data.length, src (k + j) < data.length) :
    ∃ sample m, trialBody data src (meds, k) i = some (meds.set i m, k + data.length) ∧
      Median sample = some m ∧
      sample.map some = (List.range data.length).map (fun j => data[src (k + j)]?) := by
  obtain ⟨sample, h1, h2, h3⟩ := fillSample_range data src k data.length (le_refl _) hsrc
  obtain ⟨m, hm⟩ := Median_isSome sample
  refine ⟨sample, m, ?_, hm, ?_⟩
  · unfold trialBody
    simp only [h1, hm, hi, if_true]
  · rw [← h3, List.take_of_length_le (by omega)]

theorem trials_range (data : List ℚ) (src : Nat → Nat) (B b : Nat) (hb : b ≤ B)
    (hsrc : ∀ i < b, ∀ j < data.length, src (i * data.length + j) < data.length) :
    ∃ meds, (List.range b).foldlM (trialBody data src) (makeValues B, 0)
        = some (meds, b * data.length) ∧ meds.length = B ∧
      ∀ i < b, ∃ sample, meds[i]? = Median sample ∧
        sample.map some
          = (List.range data.length).map (fun j => data[src (i * data.length + j)]?) := by
  induction b with
  | zero => exact ⟨makeValues B, by simp, length_makeValues B, by simp⟩
  | succ b ih =>
    obtain ⟨meds, h1, h2, h3⟩ := ih (by omega) (fun i hi => hsrc i (by omega))
    obtain ⟨sample, m, t1, t2, t3⟩ := trialBody_eq data src meds (b * data.length) b
      (by omega) (hsrc b (by omega))
    refine ⟨meds.set b m, ?_, by simp [h2], ?_⟩
    · rw [List.range_succ, List.foldlM_append, h1]
      simp only [List.foldlM, Option.bind_eq_bind, Option.some_bind, t1]
      have : b * data.length + data.length = (b + 1) * data.length := by ring
      rw [this]
      rfl
    · intro i hi
      by_cases hib : i = b
      · subst hib
        exact ⟨sample, by rw [List.getElem?_set_self (by omega), t2], t3⟩
      · obtain ⟨smp, s1, s2⟩ := h3 i (by omega)
        exact ⟨smp, by rw [List.getElem?_set_ne (Ne.symm hib)]; exact s1, s2⟩

theorem map_some_injective (a b : List ℚ) (h : a.map some = b.map some) : a = b :=
  List.map_injective_iff.mpr (Option.some_injective ℚ) h

/-- An index that a sample was built from is in the range of `data`. -/
theorem draw_lt_of_map_some (data sample : List ℚ) (f : Nat → Nat) (n : Nat)
    (h : sample.map some = (List.range n).map (fun j => data[f j]?)) (j : Nat) (hj : j < n) :
    f j < data.length := by
  have h1 : (sample.map some)[j]? = ((List.range n).map (fun j => data[f j]?))[j]? := by rw [h]
  have hl : sample.length = n := by
    have := congrArg List.length h
    simpa using this
  simp only [List.getElem?_map] at h1
  rw [List.getElem?_range hj, List.getElem?_eq_getElem (by omega)] at h1
  simp at h1
  by_contra hc
  rw [List.getElem?_eq_none (by omega)] at h1
  cases h1

/-! ## What a complete run returns -/

theorem exists_min_max (l : List ℚ) (h : l ≠ []) :
    ∃ lo ∈ l, ∃ hi ∈ l, ∀ x ∈ l, lo ≤ x ∧ x ≤ hi := by
  induction l with
  | nil => exact absurd rfl h
  | cons a t ih =>
    by_cases ht : t = []
    · subst ht
      exact ⟨a, by simp, a, by simp, by simp⟩
    · obtain ⟨lo, hlo, hi, hhi, hb⟩ := ih ht
      refine ⟨min a lo, ?_, max a hi, ?_, ?_⟩
      · rcases min_choice a lo with h1 | h1 <;> rw [h1]
        · exact List.mem_cons_self _ _
        · exact List.mem_cons_of_mem _ hlo
      · rcases max_choice a hi with h1 | h1 <;> rw [h1]
        · exact List.mem_cons_self _ _
        · exact List.mem_cons_of_mem _ hhi
      · intro x hx
        rcases List.mem_cons.mp hx with h1 | h1
        · subst h1
          exact ⟨min_le_left _ _, le_max_left _ _⟩
        · exact ⟨le_trans (min_le_right _ _) (hb x h1).1, le_trans (hb x h1).2 (le_max_right _ _)⟩

/-- The entries of a sample are entries of `data`. -/
theorem mem_data_of_map_some (data sample : List ℚ) (ds : List Nat)
    (h : sample.map some = ds.map (fun r => data[r]?)) : ∀ x ∈ sample, x ∈ data := by
  intro x hx
  have : some x ∈ ds.map (fun r => data[r]?) := h ▸ List.mem_map_of_mem some hx
  obtain ⟨r, _, hr⟩ := List.mem_map.mp this
  exact List.mem_iff_getElem?.mpr ⟨r, hr⟩

theorem lt_of_map_some (data sample : List ℚ) (ds : List Nat)
    (h : sample.map some = ds.map (fun r => data[r]?)) : ∀ r ∈ ds, r < data.length := by
  intro r hr
  have : data[r]? ∈ sample.map some := h ▸ List.mem_map_of_mem (fun r => data[r]?) hr
  obtain ⟨x, _, hx⟩ := List.mem_map.mp this
  by_contra hc
  rw [List.getElem?_eq_none (by omega)] at hx
  cases hx

theorem stored_unique (data : List ℚ) (B W : Nat) (s : State) (hinv : Inv data B W s)
    (i : Nat) (a b : List ℚ) (ha : (i, a) ∈ s.stored) (hb : (i, b) ∈ s.stored) : a = b := by
  have hnd : (s.stored.map Prod.fst).Nodup := (List.nodup_append.mp hinv.nodup_owned).2.1
  have := List.inj_on_of_nodup_map hnd ha hb rfl
  exact (Prod.mk.inj this).2

theorem mem_medians (data : List ℚ) (B W : Nat) (s : State) (hinv : Inv data B W s)
    (hW : 0 < W) (hf : finished s = true) (m : Float64) (hm : m ∈ s.medians) :
    ∃ i sample, i < B ∧ (i, sample) ∈ s.stored ∧ Median sample = some m ∧
      sample.length = data.length ∧
      sample.map some = (s.drawsOf i).map (fun r => data[r]?) := by
  obtain ⟨i, hi⟩ := List.mem_iff_getElem?.mp hm
  have hlt : i < B := by
    by_contra hc
    rw [List.getElem?_eq_none (by rw [hinv.medians_length]; omega)] at hi
    cases hi
  obtain ⟨sample, h1, h2, h3, h4⟩ := stored_of_finished data B W s hinv hW hf i hlt
  exact ⟨i, sample, hlt, h1, by rw [← h2, hi], h3, h4⟩

/-- Every value a complete run returns is the median of a sample drawn from `data`. -/
theorem returned_median (data : List ℚ) (B W : Nat) (es : List Event)
    (ms : List Float64) (hW : 0 < W)
    (h : BootstrapConcurrent data B W es = some ms) (m : Float64) (hm : m ∈ ms) :
    ∃ sample : List ℚ, sample.length = data.length ∧ (∀ x ∈ sample, x ∈ data) ∧
      Median sample = some m := by
  rw [BootstrapConcurrent_eq_some] at h
  obtain ⟨s, hs, rfl⟩ := h
  obtain ⟨hinv, hf⟩ := Inv_run data B W es s hs
  obtain ⟨i, sample, _, _, h3, h4, h5⟩ := mem_medians data B W s hinv hW hf m hm
  exact ⟨sample, h4, mem_data_of_map_some data sample _ h5, h3⟩

/-- Every value a complete run returns lies between the least and the greatest entry of
`data`, when the data are float64 values and the length is odd or no sum of two entries
overflows. -/
theorem returned_range (data : List ℚ) (B W : Nat) (es : List Event)
    (ms : List Float64) (hn : 0 < data.length) (hW : 0 < W)
    (hrep : ∀ x ∈ data, IsFloat64 x)
    (hsafe : data.length % 2 = 1 ∨ ∀ x ∈ data, |x| ≤ maxFloat64 / 2)
    (h : BootstrapConcurrent data B W es = some ms) (m : Float64) (hm : m ∈ ms) :
    ∃ lo ∈ data, ∃ hi ∈ data, (∀ x ∈ data, lo ≤ x ∧ x ≤ hi) ∧
      ∃ q, m = Float64.finite q ∧ lo ≤ q ∧ q ≤ hi := by
  obtain ⟨sample, h4, hmem, h3⟩ := returned_median data B W es ms hW h m hm
  obtain ⟨lo, hlo, hi, hhi, hb⟩ := exists_min_max data (List.length_pos.mp hn)
  have hne : sample ≠ [] := List.length_pos.mp (h4 ▸ hn)
  refine ⟨lo, hlo, hi, hhi, hb, ?_⟩
  refine Median_bounds sample hne lo hi m (hrep lo hlo) (hrep hi hhi) ?_
    (fun x hx => hb x (hmem x hx)) h3
  rcases hsafe with h1 | h1
  · left; rw [h4]; exact h1
  · right; exact ⟨h1 lo hlo, h1 hi hhi⟩

/-- A complete run exists from every state a run can reach. -/
theorem exists_run (data : List ℚ) (B W : Nat) (es : List Event) (s : State)
    (h : exec data es (start B W) = some s) :
    ∃ es' ms, BootstrapConcurrent data B W (es ++ es') = some ms := by
  have hinv := Inv_exec data B W es _ s (Inv_start data B W) h
  obtain ⟨es', s', h1, h2⟩ := exists_finish data B W _ s (le_refl _) hinv
  refine ⟨es', s'.medians, ?_⟩
  rw [BootstrapConcurrent_eq_some]
  exact ⟨s', (run_eq_some data B W _ s').mpr ⟨exec_append data es es' _ s s' h h1, h2⟩, rfl⟩

/-- The slice a complete run returns, when the trial `i` has drawn
`src (i * n), ..., src (i * n + n - 1)`: the slice `Bootstrap` returns with the source
`src`. -/
theorem medians_eq_Bootstrap (data : List ℚ) (B W : Nat) (src : Nat → Nat)
    (es : List Event) (s : State) (hW : 0 < W) (h : run data B W es = some s)
    (hd : ∀ i, i < B → s.drawsOf i
      = (List.range data.length).map (fun j => src (i * data.length + j))) :
    Bootstrap data B src = some s.medians := by
  obtain ⟨hinv, hf⟩ := Inv_run data B W es s h
  have hsample : ∀ i, i < B → ∃ sample, s.medians[i]? = Median sample ∧
      sample.map some
        = (List.range data.length).map (fun j => data[src (i * data.length + j)]?) := by
    intro i hi
    obtain ⟨sample, _, h2, _, h4⟩ := stored_of_finished data B W s hinv hW hf i hi
    refine ⟨sample, h2, ?_⟩
    rw [h4, hd i hi, List.map_map]
    rfl
  have hsrc : ∀ i < B, ∀ j < data.length, src (i * data.length + j) < data.length := by
    intro i hi j hj
    obtain ⟨sample, _, h2⟩ := hsample i hi
    exact draw_lt_of_map_some data sample (fun j => src (i * data.length + j)) data.length
      h2 j hj
  obtain ⟨meds, h1, h2, h3⟩ := trials_range data src B B (le_refl _) hsrc
  unfold Bootstrap
  rw [h1]
  simp only [Option.map_some']
  congr 1
  apply List.ext_getElem?
  intro i
  by_cases hi : i < B
  · obtain ⟨sample, a1, a2⟩ := hsample i hi
    obtain ⟨sample', b1, b2⟩ := h3 i hi
    have : sample = sample' := map_some_injective _ _ (a2.trans b2.symm)
    rw [a1, b1, this]
  · rw [List.getElem?_eq_none (by omega), List.getElem?_eq_none (by rw [hinv.medians_length]; omega)]

/-! ## The claims about `Median` -/

theorem small_lt_threshold (q : ℚ) (h : |q| ≤ 1) : |q| < overflowThreshold := by
  unfold overflowThreshold
  have h1 : (2 : ℚ) ^ 1024 = 2 ^ 54 * 2 ^ 970 := by rw [← pow_add]
  have hX : (1 : ℚ) ≤ 2 ^ 970 := one_le_pow₀ (by norm_num)
  rw [h1]
  nlinarith

/-- The float64 nearest to 0.1. -/
theorem isFloat64_tenth : IsFloat64 (3602879701896397 / 2 ^ 55) := by
  have := isFloat64_of_scaled 3602879701896397 (-55) (by norm_num) (by norm_num) (by norm_num)
  have e : (((3602879701896397 : ℤ) : ℚ)) * 2 ^ (-55 : ℤ) = 3602879701896397 / 2 ^ 55 := by
    norm_num
  rwa [e] at this

/-- The float64 nearest to 0.2. -/
theorem isFloat64_fifth : IsFloat64 (3602879701896397 / 2 ^ 54) := by
  have := isFloat64_of_scaled 3602879701896397 (-54) (by norm_num) (by norm_num) (by norm_num)
  have e : (((3602879701896397 : ℤ) : ℚ)) * 2 ^ (-54 : ℤ) = 3602879701896397 / 2 ^ 54 := by
    norm_num
  rwa [e] at this

/-- The float64 sum of the float64 values nearest to 0.1 and 0.2: a tie, rounded up. -/
theorem add_tenth_fifth :
    Float64.add (3602879701896397 / 2 ^ 55) (3602879701896397 / 2 ^ 54)
      = Float64.finite (5404319552844596 / 2 ^ 54) := by
  unfold Float64.add
  have hsum : (3602879701896397 / 2 ^ 55 + 3602879701896397 / 2 ^ 54 : ℚ)
      = 10808639105689191 / 2 ^ 55 := by norm_num
  rw [hsum]
  have habs : |(10808639105689191 / 2 ^ 55 : ℚ)| = 10808639105689191 / 2 ^ 55 :=
    abs_of_pos (by norm_num)
  rw [round64_of_exponent (10808639105689191 / 2 ^ 55) (-2)
    (by rw [habs]; norm_num) (by rw [habs]; norm_num)
    (small_lt_threshold _ (by rw [habs]; norm_num))]
  have hmax : max ((-2 : ℤ) - 52) (-1074) = -54 := by norm_num
  rw [hmax]
  have hz : (10808639105689191 / 2 ^ 55 : ℚ) / 2 ^ (-54 : ℤ)
      = ((5404319552844595 : ℤ) : ℚ) + 1 / 2 := by norm_num
  rw [hz, roundHalfEven_tie_odd 5404319552844595 (by norm_num)]
  congr 1
  norm_num

theorem half_tenth_fifth :
    Float64.half (Float64.finite (5404319552844596 / 2 ^ 54))
      = Float64.finite (5404319552844596 / 2 ^ 55) := by
  show round64 (5404319552844596 / 2 ^ 54 / 2) = _
  have := isFloat64_of_scaled 5404319552844596 (-55) (by norm_num) (by norm_num) (by norm_num)
  have e : (((5404319552844596 : ℤ) : ℚ)) * 2 ^ (-55 : ℤ) = 5404319552844596 / 2 ^ 54 / 2 := by
    norm_num
  rw [e] at this
  rw [this]
  congr 1
  norm_num

theorem Median_two (a b : ℚ) (h : a ≤ b) :
    Median [a, b] = some (Float64.half (Float64.add a b)) := by
  simp [Median, Float64s, copy, make, h]

/-- C1, as the claim states it, fails: `xs = [0.1, 0.2]` (the float64 values nearest to
0.1 and 0.2) is in ascending order, the reference definition gives the exact average
`10808639105689191 / 2 ^ 56`, and `Median xs` is the float64 value
`5404319552844596 / 2 ^ 55` (0.15000000000000002), which is another number. -/
theorem Median_not_exact_average :
    IsFloat64 (3602879701896397 / 2 ^ 55) ∧ IsFloat64 (3602879701896397 / 2 ^ 54) ∧
    List.Sorted (· ≤ ·) [(3602879701896397 / 2 ^ 55 : ℚ), 3602879701896397 / 2 ^ 54] ∧
    medianOfSorted [3602879701896397 / 2 ^ 55, 3602879701896397 / 2 ^ 54]
      = some (10808639105689191 / 2 ^ 56) ∧
    Median [3602879701896397 / 2 ^ 55, 3602879701896397 / 2 ^ 54]
      = some (Float64.finite (5404319552844596 / 2 ^ 55)) ∧
    Median [3602879701896397 / 2 ^ 55, 3602879701896397 / 2 ^ 54]
      ≠ (medianOfSorted [3602879701896397 / 2 ^ 55, 3602879701896397 / 2 ^ 54]).map
          Float64.finite := by
  have hmed : Median [3602879701896397 / 2 ^ 55, 3602879701896397 / 2 ^ 54]
      = some (Float64.finite (5404319552844596 / 2 ^ 55)) := by
    rw [Median_two _ _ (by norm_num), add_tenth_fifth, half_tenth_fifth]
  have href : medianOfSorted [3602879701896397 / 2 ^ 55, 3602879701896397 / 2 ^ 54]
      = some (10808639105689191 / 2 ^ 56) := by
    norm_num [medianOfSorted]
  refine ⟨isFloat64_tenth, isFloat64_fifth, by simp; norm_num, href, hmed, ?_⟩
  rw [hmed, href]
  simp only [Option.map_some', ne_eq, Option.some.injEq, Float64.finite.injEq]
  norm_num

/-- C1, amended: for every sequence `xs` and its ascending sort `s`, `Median xs` returns a
value: 0 when `xs` is empty, `s[n/2]` when the length `n` is odd, and, when `n` is even
and positive and the float64 sum `s[n/2 - 1] + s[n/2]` is finite, that sum divided by 2 in
float64 arithmetic (each operation rounded to the nearest float64). This is exactly
`(s[n/2 - 1] + s[n/2]) / 2`, the value of the reference definition, whenever the sum and
the average are float64 values. -/
theorem Median_reference (xs s : List ℚ) (hs : s.Sorted (· ≤ ·)) (hp : s.Perm xs) :
    (∃ m, Median xs = some m) ∧
    (xs.length = 0 → Median xs = some (Float64.finite 0)) ∧
    (xs.length % 2 = 1 → ∃ h : xs.length / 2 < s.length,
      Median xs = some (Float64.finite s[xs.length / 2])) ∧
    (xs.length % 2 = 0 → 0 < xs.length →
      ∃ (h1 : xs.length / 2 - 1 < s.length) (h2 : xs.length / 2 < s.length),
        (∀ t, round64 (s[xs.length / 2 - 1] + s[xs.length / 2]) = Float64.finite t →
          Median xs = some (round64 (t / 2))) ∧
        (IsFloat64 (s[xs.length / 2 - 1] + s[xs.length / 2]) →
          IsFloat64 ((s[xs.length / 2 - 1] + s[xs.length / 2]) / 2) →
          Median xs = some (Float64.finite ((s[xs.length / 2 - 1] + s[xs.length / 2]) / 2)) ∧
          Median xs = (medianOfSorted s).map Float64.finite)) := by
  have hlen : s.length = xs.length := hp.length_eq
  have hsort : Float64s xs = s := Float64s_unique xs s hs hp
  refine ⟨Median_isSome xs, ?_, ?_, ?_⟩
  · intro h0
    rw [List.length_eq_zero.mp h0]
    exact Median_nil
  · intro hodd
    have h0 : xs ≠ [] := by
      intro h
      rw [h] at hodd
      simp at hodd
    obtain ⟨_, h2, ho, _⟩ := Median_of_sorted xs s hsort h0
    exact ⟨h2, ho hodd⟩
  · intro heven hpos
    have h0 : xs ≠ [] := List.length_pos.mp hpos
    obtain ⟨h1, h2, _, he⟩ := Median_of_sorted xs s hsort h0
    have hmed := he heven
    refine ⟨h1, h2, ?_, ?_⟩
    · intro t ht
      rw [hmed]
      unfold Float64.add
      rw [ht]
      rfl
    · intro hsum havg
      have hval : Median xs
          = some (Float64.finite ((s[xs.length / 2 - 1] + s[xs.length / 2]) / 2)) := by
        rw [hmed]
        unfold Float64.add
        rw [hsum]
        exact congrArg some havg
      refine ⟨hval, ?_⟩
      rw [hval]
      unfold medianOfSorted
      rw [hlen]
      have hn0 : xs.length ≠ 0 := by omega
      have hn1 : ¬ xs.length % 2 = 1 := by omega
      simp only [hn0, if_false, hn1, List.getElem?_eq_getElem h1, List.getElem?_eq_getElem h2,
        Option.map_some']

theorem isFloat64_intCast (m : ℤ) (h : |m| < 2 ^ 53) : IsFloat64 (m : ℚ) := by
  have := isFloat64_of_scaled m 0 h (by norm_num) (by norm_num)
  simpa using this

/-- The examples of C1, which the amended claim keeps: `Median([5]) = 5`,
`Median([1,3]) = 2`, `Median([3,1,2]) = 2`, `Median([4,1,3,2]) = 2.5` and
`Median([]) = 0`. -/
theorem Median_reference_witness :
    Median [5] = some (Float64.finite 5) ∧ Median [1, 3] = some (Float64.finite 2) ∧
    Median [3, 1, 2] = some (Float64.finite 2) ∧
    Median [4, 1, 3, 2] = some (Float64.finite (5 / 2)) ∧
    Median [] = some (Float64.finite 0) := by
  refine ⟨?_, ?_, ?_, ?_, ?_⟩
  · obtain ⟨_, h⟩ := (Median_reference [5] [5] (by decide) (by decide)).2.2.1 (by decide)
    exact h
  · obtain ⟨_, _, _, h⟩ :=
      (Median_reference [1, 3] [1, 3] (by decide) (by decide)).2.2.2 (by decide) (by decide)
    have h4 : IsFloat64 ((1 : ℚ) + 3) := by
      have := isFloat64_intCast 4 (by norm_num)
      norm_num at this ⊢
      exact this
    have h2 : IsFloat64 (((1 : ℚ) + 3) / 2) := by
      have := isFloat64_intCast 2 (by norm_num)
      norm_num at this ⊢
      exact this
    have := (h h4 h2).1
    norm_num at this ⊢
    exact this
  · obtain ⟨_, h⟩ :=
      (Median_reference [3, 1, 2] [1, 2, 3] (by decide) (by decide)).2.2.1 (by decide)
    exact h
  · obtain ⟨_, _, _, h⟩ :=
      (Median_reference [4, 1, 3, 2] [1, 2, 3, 4] (by decide) (by decide)).2.2.2 (by decide)
        (by decide)
    have h5 : IsFloat64 ((2 : ℚ) + 3) := by
      have := isFloat64_intCast 5 (by norm_num)
      norm_num at this ⊢
      exact this
    have h52 : IsFloat64 (((2 : ℚ) + 3) / 2) := by
      have := isFloat64_of_scaled 5 (-1) (by norm_num) (by norm_num) (by norm_num)
      norm_num at this ⊢
      exact this
    have := (h h5 h52).1
    norm_num at this ⊢
    exact this
  · exact (Median_reference [] [] (by decide) (by decide)).2.1 rfl

/-- Halving the least positive float64 is a tie between 0 and that value; it rounds to the
even one, 0: on `[5e-324, 0]` the value of `Median` is 0. -/
theorem Median_least_subnormal :
    IsFloat64 (2 ^ (-1074 : ℤ)) ∧
    Median [2 ^ (-1074 : ℤ), 0] = some (Float64.finite 0) := by
  have hrep : IsFloat64 (2 ^ (-1074 : ℤ)) := by
    simpa using isFloat64_of_scaled 1 (-1074) (by norm_num) (by norm_num) (by norm_num)
  refine ⟨hrep, ?_⟩
  have hpos := two_zpow_pos (-1074)
  have hmed : Median [2 ^ (-1074 : ℤ), 0]
      = some (Float64.half (Float64.add 0 (2 ^ (-1074 : ℤ)))) := by
    have hsort : Float64s [2 ^ (-1074 : ℤ), 0] = [0, 2 ^ (-1074 : ℤ)] :=
      Float64s_unique _ _ (List.sorted_cons.mpr ⟨by
        intro b hb
        rw [List.mem_singleton.mp hb]
        exact le_of_lt hpos, List.sorted_singleton _⟩) (List.Perm.swap _ _ _)
    obtain ⟨_, _, _, he⟩ := Median_of_sorted [2 ^ (-1074 : ℤ), 0] _ hsort (by simp)
    simpa using he rfl
  rw [hmed]
  unfold Float64.add
  rw [zero_add, hrep]
  show some (round64 (2 ^ (-1074 : ℤ) / 2)) = _
  have hq : (2 : ℚ) ^ (-1074 : ℤ) / 2 = 2 ^ (-1075 : ℤ) := by
    rw [show (-1074 : ℤ) = -1075 + 1 from rfl, zpow_add_one₀ (by norm_num)]
    field_simp
    ring
  rw [hq]
  have hpos' := two_zpow_pos (-1075)
  have hlt : |(2 : ℚ) ^ (-1075 : ℤ)| < overflowThreshold := by
    apply small_lt_threshold
    rw [abs_of_pos hpos']
    exact zpow_le_one_of_nonpos₀ (by norm_num) (by norm_num)
  rw [round64_of_exponent _ (-1075) (by rw [abs_of_pos hpos'])
    (by rw [abs_of_pos hpos']; exact zpow_lt_zpow_right₀ (by norm_num) (by norm_num)) hlt]
  have hmax : max ((-1075 : ℤ) - 52) (-1074) = -1074 := by norm_num
  rw [hmax]
  have hz : (2 : ℚ) ^ (-1075 : ℤ) / 2 ^ (-1074 : ℤ) = ((0 : ℤ) : ℚ) + 1 / 2 := by
    rw [show (-1074 : ℤ) = -1075 + 1 from rfl, zpow_add_one₀ (by norm_num)]
    field_simp
  rw [hz]
  have : roundHalfEven (((0 : ℤ) : ℚ) + 1 / 2) = 0 := by
    unfold roundHalfEven
    have hfl : ⌊((0 : ℤ) : ℚ) + 1 / 2⌋ = 0 := by
      rw [Int.floor_eq_iff]
      constructor <;> norm_num
    rw [hfl]
    norm_num
  rw [this]
  simp

/-- C10: `Median` depends only on the multiset of its input: when `ys` is a permutation
of `xs`, `Median xs = Median ys`. -/
theorem Median_permutation (xs ys : List ℚ) (h : ys.Perm xs) : Median xs = Median ys := by
  have hsort : Float64s ys = Float64s xs :=
    Float64s_unique ys (Float64s xs) (Float64s_sorted xs) ((Float64s_perm xs).trans h.symm)
  have hl : ys.length = xs.length := h.length_eq
  by_cases h0 : xs = []
  · subst h0
    rw [List.Perm.eq_nil h]
  · have h0' : ys ≠ [] := by
      intro hy
      rw [hy] at hl
      exact h0 (List.length_eq_zero.mp hl.symm)
    obtain ⟨_, _, ho, he⟩ := Median_of_sorted xs (Float64s xs) rfl h0
    obtain ⟨_, _, ho', he'⟩ := Median_of_sorted ys (Float64s xs) hsort h0'
    rcases Nat.mod_two_eq_zero_or_one xs.length with hpar | hpar
    · rw [he hpar, he' (by rw [hl]; exact hpar)]
      simp only [hl]
    · rw [ho hpar, ho' (by rw [hl]; exact hpar)]
      simp only [hl]

/-- An instance of C10: `[3, 1, 2]` and its rearrangement `[2, 3, 1]`. -/
theorem Median_permutation_witness :
    List.Perm [2, 3, 1] ([3, 1, 2] : List ℚ) ∧ Median [3, 1, 2] = some (Float64.finite 2) ∧
    Median [2, 3, 1] = some (Float64.finite 2) := by
  have hp : List.Perm [2, 3, 1] ([3, 1, 2] : List ℚ) := by decide
  have h := Median_permutation [3, 1, 2] [2, 3, 1] hp
  have h2 : Median [3, 1, 2] = some (Float64.finite 2) := by decide
  exact ⟨hp, h2, h ▸ h2⟩

/-- C7: `Median` does not change the slice of its caller. After the call the slice `data`
holds the elements it held before, in the same order; so does every array that existed
before the call; the only array written is the private copy `sorted`, allocated by the
call. The value returned is that of `Median` on the content of `data`. -/
theorem Median_does_not_mutate (mem : Memory) (data : Nat) :
    Memory.read (MedianOn mem data).1 data = mem.read data ∧
    (∀ a, a < mem.length → Memory.read (MedianOn mem data).1 a = mem.read a) ∧
    (MedianOn mem data).1.take mem.length = mem ∧
    (MedianOn mem data).2 = Median (mem.read data) := by
  have hframe : ∀ a, a < mem.length → Memory.read (MedianOn mem data).1 a = mem.read a := by
    intro a ha
    rcases MedianOn_memory mem data with h | h
    · rw [h]
    · rw [h, read_append_left _ _ _ ha]
  refine ⟨?_, hframe, ?_, MedianOn_value mem data⟩
  · by_cases hd : data < mem.length
    · exact hframe data hd
    · have h0 : (mem.read data).length = 0 := by
        by_contra hc
        exact hd (read_length_pos mem data hc)
      unfold MedianOn
      simp [h0]
  · rcases MedianOn_memory mem data with h | h
    · rw [h]; simp
    · rw [h]; simp

/-- An instance of C7: the caller holds `[3, 1, 2]`; after the call it still does, and the
sorted copy `[1, 2, 3]` is a second array. -/
theorem Median_does_not_mutate_witness :
    MedianOn [[3, 1, 2]] 0 = ([[3, 1, 2], [1, 2, 3]], some (Float64.finite 2)) ∧
    Memory.read (MedianOn [[3, 1, 2]] 0).1 0 = [3, 1, 2] :=
  ⟨by decide, (Median_does_not_mutate [[3, 1, 2]] 0).1⟩

/-! ## The claims about `BootstrapConcurrent` -/

/-- C4: for every `data` of length `n > 0`, every `B > 0` and `W > 0`, whatever
`rand.Intn` returns and however the workers are interleaved: a run never panics, takes at
most `B * (n + 2) + W` steps, can always be continued until `wg.Wait()` returns, and the
slice `BootstrapConcurrent(data, B, W)` then returns has exactly `B` values. -/
theorem BootstrapConcurrent_length (data : List ℚ) (B W : Nat) (_ : 0 < data.length)
    (_ : 0 < B) (_ : 0 < W) :
    (∃ es ms, BootstrapConcurrent data B W es = some ms) ∧
    (∀ es ms, BootstrapConcurrent data B W es = some ms → ms.length = B) ∧
    (∀ es s, exec data es (start B W) = some s →
      Worker.panicked ∉ s.workers ∧ es.length ≤ B * (data.length + 2) + W ∧
      ∃ es' ms, BootstrapConcurrent data B W (es ++ es') = some ms) := by
  have hcont := exists_run data B W
  refine ⟨?_, ?_, ?_⟩
  · obtain ⟨es', ms, h⟩ := hcont [] (start B W) rfl
    exact ⟨[] ++ es', ms, h⟩
  · intro es ms h
    rw [BootstrapConcurrent_eq_some] at h
    obtain ⟨s, hs, rfl⟩ := h
    exact (Inv_run data B W es s hs).1.medians_length
  · intro es s h
    have hinv := Inv_exec data B W es _ s (Inv_start data B W) h
    refine ⟨hinv.no_panic, ?_, hcont es s h⟩
    have := exec_length data es _ s h
    rw [remaining_start] at this
    omega

/-- An instance of C4: a run of `BootstrapConcurrent([1, 2, 3], 2, 2)` in which the two
workers take turns returns two values. -/
theorem BootstrapConcurrent_length_witness :
    BootstrapConcurrent [1, 2, 3] 2 2
      [⟨0, 0⟩, ⟨1, 0⟩, ⟨0, 2⟩, ⟨1, 0⟩, ⟨0, 1⟩, ⟨1, 1⟩, ⟨0, 1⟩, ⟨1, 0⟩, ⟨0, 0⟩, ⟨1, 0⟩,
        ⟨0, 0⟩, ⟨1, 0⟩] = some [Float64.finite 2, Float64.finite 1] ∧
    [Float64.finite 2, Float64.finite 1].length = 2 :=
  ⟨by decide,
    (BootstrapConcurrent_length [1, 2, 3] 2 2 (by decide) (by decide) (by decide)).2.1
      [⟨0, 0⟩, ⟨1, 0⟩, ⟨0, 2⟩, ⟨1, 0⟩, ⟨0, 1⟩, ⟨1, 1⟩, ⟨0, 1⟩, ⟨1, 0⟩, ⟨0, 0⟩, ⟨1, 0⟩,
        ⟨0, 0⟩, ⟨1, 0⟩] [Float64.finite 2, Float64.finite 1] (by decide)⟩

/-- C2: for every `data` of length `n > 0`, every `B > 0` and `W > 0`, and every complete
run `es` (every assignment of trials to workers, every order of their steps), slot `i` of
the slice returned holds, for every `i < B`, the `Median` of the one sample stored for the
trial `i`; that sample has length `n` and is `data[r_0], ..., data[r_(n-1)]` for the `n`
values `r_j < n` that `rand.Intn` returned while the trial `i` was processed. -/
theorem BootstrapConcurrent_slot (data : List ℚ) (B W : Nat) (es : List Event) (s : State)
    (_ : 0 < data.length) (_ : 0 < B) (hW : 0 < W)
    (h : run data B W es = some s) (i : Nat) (hi : i < B) :
    BootstrapConcurrent data B W es = some s.medians ∧
    ∃ sample m, (i, sample) ∈ s.stored ∧
      (∀ sample', (i, sample') ∈ s.stored → sample' = sample) ∧
      Median sample = some m ∧ s.medians[i]? = some m ∧
      sample.length = data.length ∧ (s.drawsOf i).length = data.length ∧
      (∀ r ∈ s.drawsOf i, r < data.length) ∧
      sample.map some = (s.drawsOf i).map (fun r => data[r]?) := by
  obtain ⟨hinv, hf⟩ := Inv_run data B W es s h
  refine ⟨(BootstrapConcurrent_eq_some data B W es _).mpr ⟨s, h, rfl⟩, ?_⟩
  obtain ⟨sample, h1, h2, h3, h4⟩ := stored_of_finished data B W s hinv hW hf i hi
  obtain ⟨m, hm⟩ := Median_isSome sample
  refine ⟨sample, m, h1, fun sample' h' => stored_unique data B W s hinv i _ _ h' h1, hm,
    by rw [h2, hm], h3, ?_, lt_of_map_some data sample _ h4, h4⟩
  have := congrArg List.length h4
  simp only [List.length_map] at this
  omega

/-- An instance of C2: two workers take turns on `data = [1, 2, 3]` and `B = 2`; the
trial 1 draws the indices 0, 1, 0, its sample is `[1, 2, 1]` and slot 1 holds 1. -/
theorem BootstrapConcurrent_slot_witness :
    ∃ s, run [1, 2, 3] 2 2
        [⟨0, 0⟩, ⟨1, 0⟩, ⟨0, 2⟩, ⟨1, 0⟩, ⟨0, 1⟩, ⟨1, 1⟩, ⟨0, 1⟩, ⟨1, 0⟩, ⟨0, 0⟩, ⟨1, 0⟩,
          ⟨0, 0⟩, ⟨1, 0⟩] = some s ∧
      s.medians = [Float64.finite 2, Float64.finite 1] ∧ s.drawsOf 1 = [0, 1, 0] ∧ (1, [1, 2, 1]) ∈ s.stored ∧
      ∃ sample m, (1, sample) ∈ s.stored ∧ Median sample = some m ∧ s.medians[1]? = some m := by
  have hrun : run [1, 2, 3] 2 2
      [⟨0, 0⟩, ⟨1, 0⟩, ⟨0, 2⟩, ⟨1, 0⟩, ⟨0, 1⟩, ⟨1, 1⟩, ⟨0, 1⟩, ⟨1, 0⟩, ⟨0, 0⟩, ⟨1, 0⟩,
        ⟨0, 0⟩, ⟨1, 0⟩]
      = some ⟨[], [Worker.done, Worker.done], [Float64.finite 2, Float64.finite 1], [0, 1],
          [(0, 2), (1, 0), (0, 1), (1, 1), (0, 1), (1, 0)],
          [(0, [3, 2, 2]), (1, [1, 2, 1])]⟩ := by decide
  refine ⟨_, hrun, rfl, by decide, by decide, ?_⟩
  obtain ⟨_, sample, m, h1, _, h3, h4, _⟩ :=
    BootstrapConcurrent_slot [1, 2, 3] 2 2 _ _ (by decide) (by decide) (by decide) hrun 1
      (by decide)
  exact ⟨sample, m, h1, h3, h4⟩

/-- C3: for every `B > 0` and `W > 1`, in every interleaving of the workers: at no moment
of a run has an index been received or processed twice, and when `wg.Wait()` returns the
indices received from the channel are `0, ..., B-1` and the multiset of the indices
processed is `{0, ..., B-1}`, each index once. -/
theorem BootstrapConcurrent_exactly_once (data : List ℚ) (B W : Nat) (es : List Event)
    (s : State) (_ : 0 < B) (hW : 1 < W) (h : run data B W es = some s) :
    s.received = List.range B ∧
    (↑s.processed : Multiset Nat) = Multiset.range B ∧
    (∀ i, i < B → s.processed.count i = 1) ∧ (∀ i, B ≤ i → s.processed.count i = 0) ∧
    (∀ es' s', exec data es' (start B W) = some s' →
      s'.received.Nodup ∧ s'.processed.Nodup ∧ ∀ i ∈ s'.processed, i ∈ s'.received) := by
  obtain ⟨hinv, hf⟩ := Inv_run data B W es s h
  have hperm := processed_of_finished data B W s hinv (by omega) hf
  refine ⟨(received_of_finished data B W s hinv (by omega) hf).1,
    Multiset.coe_eq_coe.mpr hperm, ?_, ?_, ?_⟩
  · intro i hi
    rw [hperm.count_eq]
    exact List.count_eq_one_of_mem (List.nodup_range B) (List.mem_range.mpr hi)
  · intro i hi
    rw [hperm.count_eq]
    exact List.count_eq_zero_of_not_mem (by simp; omega)
  · intro es' s' h'
    have hinv' := Inv_exec data B W es' _ s' (Inv_start data B W) h'
    exact ⟨hinv'.nodup_received, (List.nodup_append.mp hinv'.nodup_owned).2.1,
      fun i hi => hinv'.owned.subset (List.mem_append_right _ hi)⟩

/-- An instance of C3: eight workers and `B = 2`; the worker 1 finishes the trial 1 before
the worker 0 finishes the trial 0. -/
theorem BootstrapConcurrent_exactly_once_witness :
    ∃ s, run [1, 2, 3] 2 8
        [⟨0, 0⟩, ⟨1, 0⟩, ⟨1, 1⟩, ⟨0, 0⟩, ⟨1, 2⟩, ⟨0, 0⟩, ⟨0, 1⟩, ⟨1, 2⟩, ⟨1, 0⟩, ⟨0, 0⟩,
          ⟨2, 0⟩, ⟨3, 0⟩, ⟨4, 0⟩, ⟨5, 0⟩, ⟨6, 0⟩, ⟨7, 0⟩, ⟨0, 0⟩, ⟨1, 0⟩] = some s ∧
      s.processed = [1, 0] ∧ (↑s.processed : Multiset Nat) = Multiset.range 2 := by
  have hrun : run [1, 2, 3] 2 8
      [⟨0, 0⟩, ⟨1, 0⟩, ⟨1, 1⟩, ⟨0, 0⟩, ⟨1, 2⟩, ⟨0, 0⟩, ⟨0, 1⟩, ⟨1, 2⟩, ⟨1, 0⟩, ⟨0, 0⟩,
        ⟨2, 0⟩, ⟨3, 0⟩, ⟨4, 0⟩, ⟨5, 0⟩, ⟨6, 0⟩, ⟨7, 0⟩, ⟨0, 0⟩, ⟨1, 0⟩]
      = some ⟨[], List.replicate 8 Worker.done, [Float64.finite 1, Float64.finite 3], [0, 1],
          [(1, 1), (0, 0), (1, 2), (0, 0), (0, 1), (1, 2)],
          [(1, [2, 3, 3]), (0, [1, 1, 2])]⟩ := by decide
  exact ⟨_, hrun, rfl,
    (BootstrapConcurrent_exactly_once [1, 2, 3] 2 8 _ _ (by decide) (by decide) hrun).2.1⟩

/-- C6: only the interleaving depends on `W`. For every `data` of length `n > 0`, every
`B > 0` and a random source `src` that gives the trial `i` the draws
`src (i * n), ..., src (i * n + n - 1)` (those the single-threaded `Bootstrap` makes for
the trial `i`): complete runs of `BootstrapConcurrent` with any two numbers of workers
`W > 0` and `W' > 0` (for example 1 and 8) return the same slice, and it is the slice
`Bootstrap(data, B)` returns with the source `src`. -/
theorem BootstrapConcurrent_eq_Bootstrap (data : List ℚ) (B W W' : Nat) (src : Nat → Nat)
    (es es' : List Event) (s s' : State) (_ : 0 < data.length) (_ : 0 < B) (hW : 0 < W)
    (hW' : 0 < W') (h : run data B W es = some s) (h' : run data B W' es' = some s')
    (hd : ∀ i, i < B → s.drawsOf i
      = (List.range data.length).map (fun j => src (i * data.length + j)))
    (hd' : ∀ i, i < B → s'.drawsOf i
      = (List.range data.length).map (fun j => src (i * data.length + j))) :
    BootstrapConcurrent data B W es = some s.medians ∧
    BootstrapConcurrent data B W' es' = some s.medians ∧
    Bootstrap data B src = some s.medians := by
  have h1 := medians_eq_Bootstrap data B W src es s hW h hd
  have h2 := medians_eq_Bootstrap data B W' src es' s' hW' h' hd'
  have h3 : s'.medians = s.medians := Option.some.inj (h2.symm.trans h1)
  refine ⟨(BootstrapConcurrent_eq_some data B W es _).mpr ⟨s, h, rfl⟩,
    (BootstrapConcurrent_eq_some data B W' es' _).mpr ⟨s', h', h3⟩, h1⟩

/-- An instance of C6: `data = [1, 2, 3]`, `B = 2` and the source `src k = (k / 2) % 3`,
which gives the trial 0 the draws 0, 0, 1 and the trial 1 the draws 1, 2, 2. One worker,
eight workers of which two interleave their trials, and `Bootstrap` all return
`[1, 3]`. -/
theorem BootstrapConcurrent_eq_Bootstrap_witness :
    BootstrapConcurrent [1, 2, 3] 2 1
      [⟨0, 0⟩, ⟨0, 0⟩, ⟨0, 0⟩, ⟨0, 1⟩, ⟨0, 0⟩, ⟨0, 0⟩, ⟨0, 1⟩, ⟨0, 2⟩, ⟨0, 2⟩, ⟨0, 0⟩,
        ⟨0, 0⟩] = some [Float64.finite 1, Float64.finite 3] ∧
    BootstrapConcurrent [1, 2, 3] 2 8
      [⟨0, 0⟩, ⟨1, 0⟩, ⟨1, 1⟩, ⟨0, 0⟩, ⟨1, 2⟩, ⟨0, 0⟩, ⟨0, 1⟩, ⟨1, 2⟩, ⟨1, 0⟩, ⟨0, 0⟩,
        ⟨2, 0⟩, ⟨3, 0⟩, ⟨4, 0⟩, ⟨5, 0⟩, ⟨6, 0⟩, ⟨7, 0⟩, ⟨0, 0⟩, ⟨1, 0⟩] =
      some [Float64.finite 1, Float64.finite 3] ∧
    Bootstrap [1, 2, 3] 2 (fun k => (k / 2) % 3) = some [Float64.finite 1, Float64.finite 3] := by
  have hrun : run [1, 2, 3] 2 1
      [⟨0, 0⟩, ⟨0, 0⟩, ⟨0, 0⟩, ⟨0, 1⟩, ⟨0, 0⟩, ⟨0, 0⟩, ⟨0, 1⟩, ⟨0, 2⟩, ⟨0, 2⟩, ⟨0, 0⟩,
        ⟨0, 0⟩]
      = some ⟨[], [Worker.done], [Float64.finite 1, Float64.finite 3], [0, 1],
          [(0, 0), (0, 0), (0, 1), (1, 1), (1, 2), (1, 2)],
          [(0, [1, 1, 2]), (1, [2, 3, 3])]⟩ := by decide
  have hrun' : run [1, 2, 3] 2 8
      [⟨0, 0⟩, ⟨1, 0⟩, ⟨1, 1⟩, ⟨0, 0⟩, ⟨1, 2⟩, ⟨0, 0⟩, ⟨0, 1⟩, ⟨1, 2⟩, ⟨1, 0⟩, ⟨0, 0⟩,
        ⟨2, 0⟩, ⟨3, 0⟩, ⟨4, 0⟩, ⟨5, 0⟩, ⟨6, 0⟩, ⟨7, 0⟩, ⟨0, 0⟩, ⟨1, 0⟩]
      = some ⟨[], List.replicate 8 Worker.done, [Float64.finite 1, Float64.finite 3], [0, 1],
          [(1, 1), (0, 0), (1, 2), (0, 0), (0, 1), (1, 2)],
          [(1, [2, 3, 3]), (0, [1, 1, 2])]⟩ := by decide
  exact BootstrapConcurrent_eq_Bootstrap [1, 2, 3] 2 1 8 (fun k => (k / 2) % 3) _ _ _ _
    (by decide) (by decide) (by decide) (by decide) hrun hrun' (by decide) (by decide)

theorem round64_double_max : round64 (maxFloat64 + maxFloat64) = Float64.posInf := by
  apply round64_posInf
  unfold overflowThreshold maxFloat64
  have h1 : (2 : ℚ) ^ 1024 = 2 ^ 54 * 2 ^ 970 := by rw [← pow_add]
  have h2 : (2 : ℚ) ^ 971 = 2 * 2 ^ 970 := by rw [pow_succ]; ring
  have hX : (0 : ℚ) < 2 ^ 970 := pow_pos (by norm_num) _
  rw [h1, h2]
  nlinarith

theorem round64_double_neg_max :
    round64 (-maxFloat64 + -maxFloat64) = Float64.negInf := by
  apply round64_negInf
  unfold overflowThreshold maxFloat64
  have h1 : (2 : ℚ) ^ 1024 = 2 ^ 54 * 2 ^ 970 := by rw [← pow_add]
  have h2 : (2 : ℚ) ^ 971 = 2 * 2 ^ 970 := by rw [pow_succ]; ring
  have hX : (0 : ℚ) < 2 ^ 970 := pow_pos (by norm_num) _
  rw [h1, h2]
  nlinarith

theorem isFloat64_neg_maxFloat64 : IsFloat64 (-maxFloat64) := by
  have := isFloat64_of_scaled (-(2 ^ 53 - 1)) 971 (by norm_num) (by norm_num) (by norm_num)
  have h971 := two_zpow_ofNat 971
  simp only [Nat.cast_ofNat] at h971
  have e : (((-(2 ^ 53 - 1) : ℤ) : ℚ)) * 2 ^ (971 : ℤ) = -maxFloat64 := by
    unfold maxFloat64
    rw [h971, ← neg_mul]
    congr 1
    norm_num
  rwa [e] at this

theorem le_half_maxFloat64 (x : ℚ) (h : |x| ≤ 2 ^ 52) : |x| ≤ maxFloat64 / 2 := by
  unfold maxFloat64
  have h2 : (2 : ℚ) ^ 971 = 2 * 2 ^ 970 := by rw [pow_succ]; ring
  have hX : (1 : ℚ) ≤ 2 ^ 970 := one_le_pow₀ (by norm_num)
  rw [h2]
  have : (2 : ℚ) ^ 52 ≤ (2 ^ 53 - 1) * (2 * 2 ^ 970) / 2 := by nlinarith
  exact le_trans h this

/-- The median of a sample of one value. -/
theorem Median_pair (a : ℚ) : Median [a, a] = some (Float64.half (Float64.add a a)) := by
  simp [Median, Float64s, copy, make]

/-- The run of one worker and one trial on two data, both draws returning the index
`r`. -/
theorem run_pair (a b : ℚ) (r : Nat) (c : ℚ) (hr : [a, b][r]? = some c) :
    BootstrapConcurrent [a, b] 1 1 (List.replicate 5 ⟨0, r⟩)
      = some [Float64.half (Float64.add c c)] := by
  have hr2 : r < 2 := by
    by_contra h
    rw [List.getElem?_eq_none (by simp; omega)] at hr
    cases hr
  have hc : [a, b][r] = c := by
    rw [List.getElem?_eq_getElem (by simpa using hr2)] at hr
    exact Option.some.inj hr
  simp [BootstrapConcurrent, run, exec, step, start, finished, make, makeValues, List.replicate,
    List.range, List.range.loop, hr2, hc, Median_pair]

/-- C5, as the claim states it, fails: `data = [MaxFloat64, MaxFloat64]`, `B = 1`,
`W = 1`. The sum of the two entries of the sample overflows, the slice returned is
`[+Inf]`, and `+Inf` is not within `[min(data), max(data)]`. -/
theorem BootstrapConcurrent_range_fails :
    (∀ x ∈ [maxFloat64, maxFloat64], IsFloat64 x) ∧
    BootstrapConcurrent [maxFloat64, maxFloat64] 1 1 (List.replicate 5 ⟨0, 0⟩)
      = some [Float64.posInf] ∧
    ¬ ∃ m ∈ [Float64.posInf], ∃ q, m = Float64.finite q ∧ maxFloat64 ≤ q ∧ q ≤ maxFloat64 := by
  refine ⟨?_, ?_, ?_⟩
  · intro x hx
    simp at hx
    rw [hx]
    exact isFloat64_maxFloat64
  · rw [run_pair maxFloat64 maxFloat64 0 maxFloat64 rfl]
    unfold Float64.add
    rw [round64_double_max]
    rfl
  · rintro ⟨m, hm, q, hq, _⟩
    simp at hm
    rw [hm] at hq
    cases hq

/-- C5, amended: for every `data` of `n > 0` float64 values, every `B > 0` and `W > 0`,
and every complete run (every outcome of the draws, each an index below `n`), every
element of the slice returned is `Median(sample)` for a sample of length `n` whose entries
are all entries of `data`; and it lies between the least and the greatest entry of `data`
when `n` is odd or every entry `x` has `|x| ≤ MaxFloat64 / 2`, so that the sum of two
entries does not overflow. -/
theorem BootstrapConcurrent_range (data : List ℚ) (B W : Nat) (es : List Event)
    (ms : List Float64) (hn : 0 < data.length) (_ : 0 < B) (hW : 0 < W)
    (hrep : ∀ x ∈ data, IsFloat64 x)
    (h : BootstrapConcurrent data B W es = some ms) (m : Float64) (hm : m ∈ ms) :
    (∃ sample : List ℚ, sample.length = data.length ∧ (∀ x ∈ sample, x ∈ data) ∧
      Median sample = some m) ∧
    ((data.length % 2 = 1 ∨ ∀ x ∈ data, |x| ≤ maxFloat64 / 2) →
      ∃ lo ∈ data, ∃ hi ∈ data, (∀ x ∈ data, lo ≤ x ∧ x ≤ hi) ∧
        ∃ q, m = Float64.finite q ∧ lo ≤ q ∧ q ≤ hi) :=
  ⟨returned_median data B W es ms hW h m hm,
    fun hsafe => returned_range data B W es ms hn hW hrep hsafe h m hm⟩

/-- An instance of amended C5 with an even `n`: on `data = [1, 3]` the run that draws the
index 1 twice returns one value, and it lies between 1 and 3. -/
theorem BootstrapConcurrent_range_witness :
    ∃ m, BootstrapConcurrent [1, 3] 1 1 (List.replicate 5 ⟨0, 1⟩) = some [m] ∧
      ∃ lo ∈ ([1, 3] : List ℚ), ∃ hi ∈ ([1, 3] : List ℚ),
        (∀ x ∈ ([1, 3] : List ℚ), lo ≤ x ∧ x ≤ hi) ∧
        ∃ q, m = Float64.finite q ∧ lo ≤ q ∧ q ≤ hi := by
  have hrun := run_pair 1 3 1 3 rfl
  have hrep : ∀ x ∈ ([1, 3] : List ℚ), IsFloat64 x := by
    intro x hx
    simp at hx
    rcases hx with rfl | rfl
    · simpa using isFloat64_intCast 1 (by norm_num)
    · simpa using isFloat64_intCast 3 (by norm_num)
  have hsafe : ∀ x ∈ ([1, 3] : List ℚ), |x| ≤ maxFloat64 / 2 := by
    intro x hx
    apply le_half_maxFloat64
    simp at hx
    rcases hx with rfl | rfl <;> norm_num
  exact ⟨_, hrun,
    (BootstrapConcurrent_range [1, 3] 1 1 _ _ (by decide) (by decide) (by decide) hrep hrun _
      (List.mem_singleton.mpr rfl)).2 (Or.inr hsafe)⟩

/-- C8, as the claim states it, fails: `data = [1, MaxFloat64]`, `k = 1`, `B = 1`,
`W = 1` and `rand.Intn` stubbed to return 1. The sample is two copies of `MaxFloat64`,
their sum overflows, and the result is `[+Inf]`, not `[data[1]]`. -/
theorem BootstrapConcurrent_stubbed_fails :
    IsFloat64 1 ∧ IsFloat64 maxFloat64 ∧
    (∀ e ∈ List.replicate 5 (⟨0, 1⟩ : Event), e.r = 1) ∧
    BootstrapConcurrent [1, maxFloat64] 1 1 (List.replicate 5 ⟨0, 1⟩)
      = some [Float64.posInf] ∧
    ¬ ∀ m ∈ [Float64.posInf], m = Float64.finite ([1, maxFloat64].getD 1 0) := by
  refine ⟨by simpa using isFloat64_intCast 1 (by norm_num), isFloat64_maxFloat64, ?_, ?_, ?_⟩
  · intro e he
    rw [List.eq_of_mem_replicate he]
  · rw [run_pair 1 maxFloat64 1 maxFloat64 rfl]
    unfold Float64.add
    rw [round64_double_max]
    rfl
  · intro h
    have := h Float64.posInf (List.mem_singleton.mpr rfl)
    cases this

/-- C8, amended: for every `data` of length `n > 0`, every index `k < n` with `data[k]` a
float64 value, every `B > 0` and `W > 0`: in a complete run in which `rand.Intn` always
returns `k`, every sample is `n` copies of `data[k]` and every trial has such a sample;
and every element of the slice returned is `data[k]` when `n` is odd or
`|data[k]| ≤ MaxFloat64 / 2`, so that `data[k] + data[k]` does not overflow. -/
theorem BootstrapConcurrent_stubbed (data : List ℚ) (k B W : Nat) (es : List Event)
    (s : State) (hk : k < data.length) (_ : 0 < B) (hW : 0 < W)
    (hrep : IsFloat64 data[k])
    (hstub : ∀ e ∈ es, e.r = k) (h : run data B W es = some s) :
    (∀ p ∈ s.stored, p.2 = List.replicate data.length data[k]) ∧
    (∀ i, i < B → (i, List.replicate data.length data[k]) ∈ s.stored) ∧
    BootstrapConcurrent data B W es = some s.medians ∧
    ((data.length % 2 = 1 ∨ |data[k]| ≤ maxFloat64 / 2) →
      ∀ m ∈ s.medians, m = Float64.finite data[k]) := by
  obtain ⟨hinv, hf⟩ := Inv_run data B W es s h
  have hdraws : ∀ i, ∀ r ∈ s.drawsOf i, r = k := by
    intro i r hr
    unfold State.drawsOf at hr
    obtain ⟨p, hp, hpr⟩ := List.mem_map.mp hr
    have hp' : p ∈ s.draws := (List.mem_filter.mp hp).1
    rcases draws_of_exec data es _ s ((run_eq_some data B W es s).mp h).1 p hp' with h1 | h1
    · simp [start] at h1
    · obtain ⟨e, he, hpe⟩ := h1
      rw [← hpr, hpe]
      exact hstub e he
  have hsample : ∀ p ∈ s.stored, p.2 = List.replicate data.length data[k] := by
    intro p hp
    obtain ⟨_, h2, h3⟩ := hinv.stored p hp
    rw [← h2]
    refine List.eq_replicate_iff.mpr ⟨rfl, ?_⟩
    intro x hx
    have : some x ∈ (s.drawsOf p.1).map (fun r => data[r]?) := h3 ▸ List.mem_map_of_mem some hx
    obtain ⟨r, hr, hrx⟩ := List.mem_map.mp this
    rw [hdraws p.1 r hr, List.getElem?_eq_getElem hk] at hrx
    exact (Option.some.inj hrx).symm
  refine ⟨hsample, ?_, (BootstrapConcurrent_eq_some data B W es _).mpr ⟨s, h, rfl⟩, ?_⟩
  · intro i hi
    obtain ⟨sample, h1, _⟩ := stored_of_finished data B W s hinv hW hf i hi
    have := hsample _ h1
    simp only at this
    exact this ▸ h1
  · intro hsafe m hm
    obtain ⟨i, sample, _, h2, h3, h4, _⟩ := mem_medians data B W s hinv hW hf m hm
    have hs := hsample _ h2
    simp only at hs
    have hne : sample ≠ [] := List.length_pos.mp (by omega)
    obtain ⟨q, hq, hq1, hq2⟩ := Median_bounds sample hne data[k] data[k] m hrep hrep
      (by rcases hsafe with h1 | h1
          · left; rw [h4]; exact h1
          · right; exact ⟨h1, h1⟩)
      (fun x hx => by
        rw [hs] at hx
        rw [List.eq_of_mem_replicate hx]
        exact ⟨le_refl _, le_refl _⟩) h3
    rw [hq, le_antisymm hq2 hq1]

/-- The example of C8, which the amended claim keeps: `data = [1, 2, 3, 4, 5]`, `B = 1`,
`W = 1` and `rand.Intn` stubbed to return 2: the sample is `[3, 3, 3, 3, 3]` and the
result is `[3]`. -/
theorem BootstrapConcurrent_stubbed_witness :
    ∃ s, run [1, 2, 3, 4, 5] 1 1 (List.replicate 8 ⟨0, 2⟩) = some s ∧
      s.stored = [(0, [3, 3, 3, 3, 3])] ∧ s.medians = [Float64.finite 3] ∧
      ∀ m ∈ s.medians, m = Float64.finite 3 := by
  have hrun : run [1, 2, 3, 4, 5] 1 1 (List.replicate 8 ⟨0, 2⟩)
      = some ⟨[], [Worker.done], [Float64.finite 3], [0],
          [(0, 2), (0, 2), (0, 2), (0, 2), (0, 2)], [(0, [3, 3, 3, 3, 3])]⟩ := by decide
  have h3 : IsFloat64 (([1, 2, 3, 4, 5] : List ℚ)[2]) := by
    simpa using isFloat64_intCast 3 (by norm_num)
  exact ⟨_, hrun, rfl, rfl,
    (BootstrapConcurrent_stubbed [1, 2, 3, 4, 5] 2 1 1 _ _ (by decide) (by decide) (by decide)
      h3 (by decide) hrun).2.2.2 (Or.inl (by decide))⟩

/-- C9, as the claim states it, fails: `data = [-MaxFloat64, -MaxFloat64]`, whose entries
all equal `c = -MaxFloat64`, `B = 1`, `W = 1`. The sum of the two entries of the sample
overflows and the slice returned is `[-Inf]`, not `[c]`. -/
theorem BootstrapConcurrent_constant_fails :
    IsFloat64 (-maxFloat64) ∧ (∀ x ∈ [-maxFloat64, -maxFloat64], x = -maxFloat64) ∧
    BootstrapConcurrent [-maxFloat64, -maxFloat64] 1 1 (List.replicate 5 ⟨0, 0⟩)
      = some [Float64.negInf] ∧
    ¬ ∀ m ∈ [Float64.negInf], m = Float64.finite (-maxFloat64) := by
  refine ⟨isFloat64_neg_maxFloat64, ?_, ?_, ?_⟩
  · intro x hx
    simpa using hx
  · rw [run_pair (-maxFloat64) (-maxFloat64) 0 (-maxFloat64) rfl]
    unfold Float64.add
    rw [round64_double_neg_max]
    rfl
  · intro h
    have := h Float64.negInf (List.mem_singleton.mpr rfl)
    cases this

/-- C9, amended: for every non-empty `data` whose entries all equal the same float64
value `c`, with `n` odd or `|c| ≤ MaxFloat64 / 2` (so that `c + c` does not overflow),
every `B > 0` and `W > 0`, and every complete run (every outcome of the draws), every
element of the slice returned equals `c` exactly. -/
theorem BootstrapConcurrent_constant (data : List ℚ) (c : ℚ) (B W : Nat) (es : List Event)
    (ms : List Float64) (hne : data ≠ []) (hc : ∀ x ∈ data, x = c) (hrep : IsFloat64 c)
    (hsafe : data.length % 2 = 1 ∨ |c| ≤ maxFloat64 / 2) (_ : 0 < B) (hW : 0 < W)
    (h : BootstrapConcurrent data B W es = some ms) : ∀ m ∈ ms, m = Float64.finite c := by
  intro m hm
  obtain ⟨lo, hlo, hi, hhi, _, q, hq, h1, h2⟩ :=
    returned_range data B W es ms (List.length_pos.mpr hne) hW
      (fun x hx => by rw [hc x hx]; exact hrep)
      (by rcases hsafe with h1 | h1
          · exact Or.inl h1
          · exact Or.inr (fun x hx => by rw [hc x hx]; exact h1)) h m hm
  rw [hc lo hlo] at h1
  rw [hc hi hhi] at h2
  rw [hq, le_antisymm h2 h1]

set_option maxRecDepth 100000 in
/-- The example of C9, which the amended claim keeps: 100 values all equal to 7, two
trials and two workers; the run is complete and every value returned is 7. -/
theorem BootstrapConcurrent_constant_witness :
    ∃ ms, BootstrapConcurrent (List.replicate 100 7) 2 2
        (List.replicate 102 ⟨0, 5⟩ ++ List.replicate 103 ⟨1, 8⟩ ++ [⟨0, 0⟩]) = some ms ∧
      ms.length = 2 ∧ ∀ m ∈ ms, m = Float64.finite 7 := by
  have hsome : (BootstrapConcurrent (List.replicate 100 7) 2 2
      (List.replicate 102 ⟨0, 5⟩ ++ List.replicate 103 ⟨1, 8⟩ ++ [⟨0, 0⟩])).isSome = true := by
    decide
  obtain ⟨ms, hms⟩ := Option.isSome_iff_exists.mp hsome
  have h7 : IsFloat64 7 := by simpa using isFloat64_intCast 7 (by norm_num)
  have hlen : ms.length = 2 := by
    rw [BootstrapConcurrent_eq_some] at hms
    obtain ⟨s, hs, rfl⟩ := hms
    exact (Inv_run _ 2 2 _ s hs).1.medians_length
  exact ⟨ms, hms, hlen,
    BootstrapConcurrent_constant (List.replicate 100 7) 7 2 2 _ ms (by simp)
      (fun x hx => List.eq_of_mem_replicate hx) h7
      (Or.inr (le_half_maxFloat64 7 (by norm_num))) (by decide) (by decide) hms⟩

end BootstrapGo
